import Mathlib

/-!
Verification development for `module-concat` (`lib/moduleConcatStream.js`).

The JavaScript class `ModuleConcatStream` is shallowly embedded below.
Strings are modelled as `List Char` (`Str`).  External collaborators —
the filesystem (`fs.readFileSync`), the resolver (`resolve.sync`,
`resolve.isCore`), the path library (`path.dirname`, `path.relative`,
`path.extname`, `path.resolve`) and the four static text templates read
at module load time (`header.js`, `footer.js`, `fileHeader.js`,
`fileFooter.js`) — are fields of an environment record `Env`, since
their code is outside this repository.  Machine-level behaviour of the
Node `Readable` base class is modelled as a pull protocol: a demand
signal invokes `_read`/`_continueProcessing`, and each `push` returns a
readiness bit taken from a consumer oracle.

Notes on fidelity of the string model:
* JavaScript `\s` also matches some non-ASCII whitespace; the model
  restricts to ASCII whitespace characters.
* `$`-escape sequences that JavaScript interprets inside *replacement
  strings* (such as a path containing the two characters dollar-ampersand)
  are not modelled; replacements are literal.
* Several functions that scan a string by repeatedly consuming a prefix
  are written with an explicit fuel argument initialised to the length
  of the scanned string; since every step consumes at least one
  character, this fuel is always sufficient and the wrapper definitions
  are exact.
-/

namespace ModuleConcat

abbrev Str := List Char

/-- Character used for the single-quote delimiter accepted by the
`require` regular expression. -/
def squote : Char := Char.ofNat 39

/-- Backslash character. -/
def bslash : Char := Char.ofNat 92

/-- ASCII fragment of the character class `\s` used by the regular
expressions in `_addFile`. -/
def isSpaceJS (c : Char) : Bool :=
  c == ' ' || c == '\t' || c == '\n' || c == '\r' ||
    c == Char.ofNat 11 || c == Char.ofNat 12

/-- Line terminators, the characters that `.` in a JavaScript regular
expression (without the `s` flag) does not match.  Only `\n` and `\r`
are modelled. -/
def isLineTerm (c : Char) : Bool := c == '\n' || c == '\r'

/-- Decides whether `p` is a literal prefix of `s`. -/
def isPre : Str → Str → Bool
  | [], _ => true
  | _ :: _, [] => false
  | p :: ps, c :: cs => p == c && isPre ps cs

/-- Consumes the literal `p` from the front of `s`, or fails. -/
def dropLit : Str → Str → Option Str
  | [], s => some s
  | _ :: _, [] => none
  | p :: ps, c :: cs => if p == c then dropLit ps cs else none

/-- Decides whether `pat` occurs as a contiguous substring of `s`. -/
def containsSub (pat : Str) : Str → Bool
  | [] => pat.isEmpty
  | c :: cs => isPre pat (c :: cs) || containsSub pat cs

/-- Holds when no occurrence of `pat` starts strictly inside `a` in the
string `a ++ pat ++ b`; used to identify the leftmost occurrence. -/
def noEarlierOcc (pat b : Str) : Str → Bool
  | [] => true
  | c :: a => !(isPre pat (c :: a ++ pat ++ b)) && noEarlierOcc pat b a

/-- Fuelled worker for `replaceAllSub`. -/
def replaceAllGo (pat repl : Str) : Nat → Str → Str
  | 0, s => s
  | _ + 1, [] => []
  | fuel + 1, c :: cs =>
    if pat.isEmpty then c :: cs
    else if isPre pat (c :: cs) then
      repl ++ replaceAllGo pat repl fuel ((c :: cs).drop pat.length)
    else c :: replaceAllGo pat repl fuel cs

/-- Global, literal find-and-replace, the model of
`String.prototype.replace` with a `/g` regular expression whose pattern
is a fixed word (used for `/\$\{id\}/g`, `/\$\{path\}/g`, `/__dirname/g`
and `/__filename/g`).  The replacement text is spliced in literally and
is not rescanned, as in JavaScript. -/
def replaceAllSub (pat repl s : Str) : Str :=
  replaceAllGo pat repl s.length s

/-- Replacement of the first occurrence of a doubled backslash by a
single backslash: the model of `modulePath.replace("\\\\", "\\")`, which
with a string pattern replaces only the first occurrence. -/
def unescapeFirst : Str → Str
  | c :: c' :: rest =>
    if c == bslash && c' == bslash then bslash :: rest
    else c :: unescapeFirst (c' :: rest)
  | s => s

/-- Model of `modulePath.match(/^\.?\.?\//)` being non-null: the
language of that anchored pattern is exactly the prefixes `/`, `./`
and `../`. -/
def jsPathPrefixTest (p : Str) : Bool :=
  match p with
  | '/' :: _ => true
  | '.' :: '/' :: _ => true
  | '.' :: '.' :: '/' :: _ => true
  | _ => false

/-- Decimal digits of a natural number (fuelled worker). -/
def natCharsGo : Nat → Nat → Str
  | 0, _ => []
  | fuel + 1, n =>
    if n < 10 then [Nat.digitChar n]
    else natCharsGo fuel (n / 10) ++ [Nat.digitChar (n % 10)]

/-- Decimal rendering of a natural number. -/
def natChars (n : Nat) : Str := natCharsGo (n + 1) n

/-- Decimal rendering of an integer, the model of JavaScript number to
string coercion for the integer ids spliced into output text. -/
def intChars (i : Int) : Str :=
  if i < 0 then '-' :: natChars i.natAbs else natChars i.natAbs

/-- Fuelled worker for `jsIndexOf`. -/
def jsIndexOfAux : List Str → Str → Nat → Int
  | [], _, _ => -1
  | a :: as, x, n => if a == x then Int.ofNat n else jsIndexOfAux as x (n + 1)

/-- Model of `Array.prototype.indexOf`: index of the first occurrence,
`-1` when absent. -/
def jsIndexOf (l : List Str) (x : Str) : Int := jsIndexOfAux l x 0

/-- Escape of one character inside a JSON string literal (the common
cases of `JSON.stringify`; other control characters are not modelled). -/
def jsonEscChar (c : Char) : Str :=
  if c == '"' then [bslash, '"']
  else if c == bslash then [bslash, bslash]
  else if c == '\n' then [bslash, 'n']
  else if c == '\r' then [bslash, 'r']
  else if c == '\t' then [bslash, 't']
  else [c]

/-- Model of `JSON.stringify` on a string. -/
def jsonStringify (s : Str) : Str :=
  '"' :: (s.map jsonEscChar).flatten ++ ['"']

/-! ### Comment stripping

Model of `code.replace(/(?:\r\n?|\n)\s*\/\/.*/g, "")` (line 140 of the
source): a line terminator, then greedy whitespace, then `//`, then the
rest of the line, replaced by nothing, scanning left to right. -/

/-- Attempts the tail of the comment pattern (`\s*\/\/.*`) and returns
the remainder of the string after the match. -/
def commentTail (cs : Str) : Option Str :=
  match cs.dropWhile isSpaceJS with
  | '/' :: '/' :: rest => some (rest.dropWhile (fun c => !isLineTerm c))
  | _ => none

/-- Attempts the whole comment pattern at the current position. -/
def commentMatchAt : Str → Option Str
  | '\r' :: '\n' :: rest => commentTail rest
  | '\r' :: rest => commentTail rest
  | '\n' :: rest => commentTail rest
  | _ => none

/-- Fuelled worker for `stripComments`. -/
def stripCommentsGo : Nat → Str → Str
  | 0, s => s
  | _ + 1, [] => []
  | fuel + 1, c :: cs =>
    match commentMatchAt (c :: cs) with
    | some rest => stripCommentsGo fuel rest
    | none => c :: stripCommentsGo fuel cs

/-- Model of the comment-stripping step of `_addFile`. -/
def stripComments (s : Str) : Str := stripCommentsGo s.length s

/-- Decides whether the comment pattern matches at any position of the
string. -/
def hasCommentAt : Str → Bool
  | [] => false
  | c :: cs => (commentMatchAt (c :: cs)).isSome || hasCommentAt cs

/-- Holds when the string is empty or starts with a line terminator —
that is, the position sits at a line boundary, where the `.*` of the
comment pattern stops. -/
def atLineBound : Str → Bool
  | [] => true
  | c :: _ => isLineTerm c

/-- Scans the positions of `pre` inside the string `pre ++ ctx`,
checking that no comment match starts at any of them; the analogue for
the comment pattern of `noEarlierOcc` for literal patterns. -/
def noCommentStart (ctx : Str) : Str → Bool
  | [] => true
  | c :: cs => !(commentMatchAt (c :: (cs ++ ctx))).isSome && noCommentStart ctx cs

/-- One removable run of the comment pattern: a line terminator (`\n`,
`\r` or `\r\n`), optional leading whitespace, then `//` and the rest of
the line. -/
def commentRun (term ws rest : Str) : Str := term ++ ws ++ ('/' :: '/' :: rest)

/-! ### The `require(...)` matcher

Model of
`/require\s*\(\s*(["'])((?:(?:(?!\1)[^\\]|(?:\\\\)))*)\1\s*\)/g`:
the literal `require`, optional whitespace, `(`, optional whitespace, a
quote, a body of characters that are neither the quote nor a lone
backslash (doubled backslashes allowed), the same quote, optional
whitespace, `)`. -/

/-- Parses the quoted body (group 2 of the regular expression); returns
the body and the remainder starting at the closing quote. -/
def parseBody (q : Char) : Str → Option (Str × Str)
  | [] => none
  | c :: rest =>
    if c == q then some ([], c :: rest)
    else if c == bslash then
      match rest with
      | c' :: rest2 =>
        if c' == bslash then
          (parseBody q rest2).map (fun p => (bslash :: bslash :: p.1, p.2))
        else none
      | [] => none
    else (parseBody q rest).map (fun p => (c :: p.1, p.2))

/-- Attempts the whole `require(...)` pattern at the current position;
returns the quoted body (the requested module path, group 2) and the
remainder of the string after the match. -/
def matchRequireAt (cs : Str) : Option (Str × Str) :=
  match dropLit ("require".data) cs with
  | none => none
  | some cs1 =>
    match cs1.dropWhile isSpaceJS with
    | '(' :: cs3 =>
      match cs3.dropWhile isSpaceJS with
      | q :: cs5 =>
        if q == '"' || q == squote then
          match parseBody q cs5 with
          | some (body, cs6) =>
            match cs6 with
            | q2 :: cs7 =>
              if q2 == q then
                match cs7.dropWhile isSpaceJS with
                | ')' :: cs8 => some (body, cs8)
                | _ => none
              else none
            | [] => none
          | none => none
        else none
      | [] => none
    | _ => none

/-- Decides whether the `require` regular expression matches anywhere in
the string. -/
def hasRequireSite : Str → Bool
  | [] => false
  | c :: cs => (matchRequireAt (c :: cs)).isSome || hasRequireSite cs

/-! ### Data model -/

/-- Configuration recognised by the constructor (`options`). -/
structure Opts where
  outputPath : Option Str
  excludeFiles : Option (List Str)
  excludeNodeModules : Bool
  browser : Bool
deriving DecidableEq

/-- External collaborators: templates, filesystem, resolver, path
library.  `resolveSync name basedir browser` models `resolve.sync` with
`basedir` and the fixed extension order, where the `browser` flag
selects the `packageFilter` that substitutes the `browser` field of
`package.json`; `none` models a thrown resolution error. -/
structure Env where
  header : Str
  footer : Str
  fileHeader : Str
  fileFooter : Str
  readFile : Str → Option Str
  isCore : Str → Bool
  resolveSync : Str → Str → Bool → Option Str
  dirname : Str → Str
  relative : Str → Str → Str
  extname : Str → Str
  resolvePath : Str → Str

/-- Traversal state owned by one `ModuleConcatStream` instance: the
fields `_files`, `_fileIndex` and `_addonsExcluded`. -/
structure St where
  files : List Str
  fileIndex : Nat
  addonsExcluded : List Str
deriving DecidableEq

/-- Model of the constructor's normalisation
`opts.excludeFiles[i] = path.resolve(opts.excludeFiles[i])`. -/
def normOpts (env : Env) (opts : Opts) : Opts :=
  { opts with excludeFiles := opts.excludeFiles.map (fun l => l.map env.resolvePath) }

/-- Model of the constructor's traversal state:
`this._files = [entryModulePath]`, `this._fileIndex = 0`,
`this._addonsExcluded = []`.  The entry path is stored verbatim. -/
def initSt (entry : Str) : St :=
  { files := [entry], fileIndex := 0, addonsExcluded := [] }

/-- Text `__require(index,parentIndex)` spliced in place of a matched
`require(...)` call. -/
def requireCallText (index parentIndex : Int) : Str :=
  "__require(".data ++ intChars index ++ [','] ++ intChars parentIndex ++ [')']

/-- Model of the replacer callback passed to `code.replace(requireRegex,
...)` (lines 154–222 of the source).  `matched` is the whole matched
call-site text, `modulePath0` the quoted module path (group 2).  Returns
the (possibly) updated traversal state and the text standing in for the
call site. -/
def replaceRequire (env : Env) (opts : Opts) (filePath : Str) (st : St)
    (matched modulePath0 : Str) : St × Str :=
  if env.isCore modulePath0 && !opts.browser then (st, matched)
  else if opts.excludeNodeModules && !jsPathPrefixTest (unescapeFirst modulePath0) then
    (st, matched)
  else
    match env.resolveSync (unescapeFirst modulePath0) (env.dirname filePath)
        opts.browser with
    | none => (st, matched)
    | some resolved =>
      if env.isCore resolved then (st, matched)
      else if (env.extname resolved).map Char.toLower = ".node".data then
        ({ st with addonsExcluded := st.addonsExcluded ++ [resolved] }, matched)
      else if jsIndexOf st.files resolved < 0 then
        match opts.excludeFiles with
        | none =>
          ({ st with files := st.files ++ [resolved] },
            requireCallText (Int.ofNat st.files.length)
              (jsIndexOf (st.files ++ [resolved]) filePath))
        | some ex =>
          if jsIndexOf ex resolved < 0 then
            ({ st with files := st.files ++ [resolved] },
              requireCallText (Int.ofNat st.files.length)
                (jsIndexOf (st.files ++ [resolved]) filePath))
          else (st, matched)
      else
        (st, requireCallText (jsIndexOf st.files resolved)
          (jsIndexOf st.files filePath))

/-- Fuelled worker for the global stateful replacement of `require`
call sites: scans left to right, applying `replaceRequire` at each
match and resuming after the matched text. -/
def requireReplaceGo (env : Env) (opts : Opts) (filePath : Str) :
    Nat → Str → St → Str × St
  | 0, s, st => (s, st)
  | _ + 1, [], st => ([], st)
  | fuel + 1, c :: cs, st =>
    match matchRequireAt (c :: cs) with
    | some (body, rest) =>
      let matched := (c :: cs).take ((c :: cs).length - rest.length)
      let p1 := replaceRequire env opts filePath st matched body
      let p2 := requireReplaceGo env opts filePath fuel rest p1.1
      (p1.2 ++ p2.1, p2.2)
    | none =>
      let p := requireReplaceGo env opts filePath fuel cs st
      (c :: p.1, p.2)

/-- Model of `code.replace(requireRegex, callback)`. -/
def scanRequires (env : Env) (opts : Opts) (filePath code : Str) (st : St) :
    Str × St :=
  requireReplaceGo env opts filePath code.length code st

/-- Token `__dirname`. -/
def dirnameTok : Str := "__dirname".data

/-- Token `__filename`. -/
def filenameTok : Str := "__filename".data

/-- Directory-accessor call text. -/
def getDirnameCall (arg : Str) : Str := "__getDirname(".data ++ arg ++ [')']

/-- File-accessor call text. -/
def getFilenameCall (arg : Str) : Str := "__getFilename(".data ++ arg ++ [')']

/-- Model of the `__dirname`/`__filename` replacement step (lines
224–235 of the source): performed only when an output path is
configured and `browser` is not `true`; both passes splice in the same
argument, `JSON.stringify(path.relative(path.dirname(outputPath),
filePath))`, and the `__dirname` pass runs first. -/
def applyDirnameFilename (env : Env) (opts : Opts) (filePath code : Str) : Str :=
  match opts.outputPath with
  | some outputPath =>
    if !opts.browser then
      let arg := jsonStringify (env.relative (env.dirname outputPath) filePath)
      replaceAllSub filenameTok (getFilenameCall arg)
        (replaceAllSub dirnameTok (getDirnameCall arg) code)
    else code
  | none => code

/-- Substitution of `${id}` and then `${path}` into a per-file template
(`FILE_HEADER` / `FILE_FOOTER`), in the order performed by the source. -/
def substIdPath (tmpl : Str) (id : Int) (p : Str) : Str :=
  replaceAllSub ("${path}".data) p (replaceAllSub ("${id}".data) (intChars id) tmpl)

/-- Model of `_addFile` (lines 133–259).  Returns `none` when reading
the file fails (the `catch` branch: an asynchronous error notification
is scheduled and `false` is returned); otherwise returns the updated
traversal state and the chunk pushed for this file.  The cursor is
incremented immediately after a successful read, before any rewriting. -/
def addFile (env : Env) (opts : Opts) (st : St) (filePath : Str) :
    Option (St × Str) :=
  match env.readFile filePath with
  | none => none
  | some code0 =>
    let st1 : St := { st with fileIndex := st.fileIndex + 1 }
    let code1 := stripComments code0
    let p := scanRequires env opts filePath code1 st1
    let code2 := applyDirnameFilename env opts filePath p.1
    let id := jsIndexOf p.2.files filePath
    some (p.2,
      substIdPath env.fileHeader id filePath ++
      (if env.extname filePath = ".json".data then "module.exports = ".data else []) ++
      code2 ++
      substIdPath env.fileFooter id filePath)

/-- Model of `getStats` (lines 261–270): a state error while the cursor
has not reached the end of the file list, otherwise the file list and
the excluded-addon list. -/
def getStats (st : St) : Except Str (List Str × List Str) :=
  if st.fileIndex < st.files.length then
    Except.error ("Statistics are not yet available.".data)
  else Except.ok (st.files, st.addonsExcluded)

/-! ### The production protocol

One demand signal from the consumer invokes `_read`, which calls
`_continueProcessing`.  Each `push` returns a readiness bit; the model
takes it from an oracle indexed by the number of chunks pushed so far.
An `errored` status records that the `catch` branch of `_addFile` ran
and scheduled an asynchronous error notification (`errors` counts the
scheduled notifications); an `ended` status records `push(null)`. -/

/-- Protocol status of the machine. -/
inductive Status
  | running
  | errored
  | ended
deriving DecidableEq

/-- Machine state: traversal state plus the `_headerWritten` flag and
the protocol bookkeeping (pushed chunks, status, scheduled errors). -/
structure MSt where
  core : St
  headerWritten : Bool
  status : Status
  out : List Str
  errors : Nat
deriving DecidableEq

/-- Machine state produced by the constructor. -/
def initM (entry : Str) : MSt :=
  { core := initSt entry, headerWritten := false, status := Status.running,
    out := [], errors := 0 }

/-- Pushes a chunk and returns the readiness bit of this push. -/
def pushChunk (oracle : Nat → Bool) (m : MSt) (chunk : Str) : MSt × Bool :=
  ({ m with out := m.out ++ [chunk] }, oracle m.out.length)

/-- Model of the `while` loop of `_continueProcessing` followed by the
footer and EOF pushes: while the cursor is inside the file list, add the
file at the cursor and push its chunk, stopping on backpressure
(`push` returned `false`) or on a read error; once the cursor reaches
the end, push the footer and `push(null)`.  The fuel bounds the number
of files handled in one invocation; `none` means the fuel ran out. -/
def loopFiles (env : Env) (opts : Opts) (oracle : Nat → Bool) :
    Nat → MSt → Option MSt
  | 0, _ => none
  | fuel + 1, m =>
    if h : m.core.fileIndex < m.core.files.length then
      match addFile env opts m.core (m.core.files.get ⟨m.core.fileIndex, h⟩) with
      | none => some { m with status := Status.errored, errors := m.errors + 1 }
      | some (st', chunk) =>
        let p := pushChunk oracle { m with core := st' } chunk
        if p.2 then loopFiles env opts oracle fuel p.1 else some p.1
    else
      let p := pushChunk oracle m env.footer
      some { p.1 with status := Status.ended }

/-- Model of `_continueProcessing` (lines 113–129): write the header
first (latching `_headerWritten` before the push), then run the file
loop. -/
def contProc (env : Env) (opts : Opts) (oracle : Nat → Bool) (fuel : Nat)
    (m : MSt) : Option MSt :=
  if m.headerWritten then loopFiles env opts oracle fuel m
  else
    let m1 : MSt := { m with headerWritten := true }
    let p := pushChunk oracle m1 env.header
    if p.2 then loopFiles env opts oracle fuel p.1 else some p.1

/-- Repeated demand signals, each one a call of `_continueProcessing`,
with no gating: the consumer may keep demanding in any state. -/
def demandIter (env : Env) (opts : Opts) (oracle : Nat → Bool) (fuel : Nat) :
    Nat → MSt → Option MSt
  | 0, m => some m
  | n + 1, m =>
    match contProc env opts oracle fuel m with
    | none => none
    | some m' => demandIter env opts oracle fuel n m'

/-- A complete run: demand signals are issued until the machine reports
end of stream (after `push(null)` the consumer stops demanding).
Returns `none` when the run does not reach the end within the given
number of demand signals. -/
def runDemands (env : Env) (opts : Opts) (oracle : Nat → Bool) :
    Nat → MSt → Option MSt
  | 0, m => if m.status = Status.ended then some m else none
  | n + 1, m =>
    if m.status = Status.ended then some m
    else
      match contProc env opts oracle (n + 1) m with
      | none => none
      | some m' => runDemands env opts oracle n m'

/-- Oracle-free canonical traversal: the files processed in cursor
order from a traversal state, together with the chunks they produce,
ignoring the consumer entirely.  `none` on a read error or when the
fuel runs out. -/
def produceAll (env : Env) (opts : Opts) : Nat → St → Option (St × List Str)
  | 0, _ => none
  | fuel + 1, st =>
    if h : st.fileIndex < st.files.length then
      match addFile env opts st (st.files.get ⟨st.fileIndex, h⟩) with
      | none => none
      | some (st', chunk) =>
        match produceAll env opts fuel st' with
        | none => none
        | some (st'', cs) => some (st'', chunk :: cs)
    else some (st, [])

/-! ### Step relation on traversal states

`GrowsTo opts st st'` collects the structural facts every processing
step enjoys: the file list only grows by appending, appended paths are
new (so duplicate freedom is preserved), paths of the exclude set that
are not yet in the list never enter it, and the addon list only grows. -/

/-- Structural relation between a traversal state and any later one. -/
def GrowsTo (opts : Opts) (st st' : St) : Prop :=
  (∃ t, st'.files = st.files ++ t) ∧
  (st.files.Nodup → st'.files.Nodup) ∧
  (∀ ex p, opts.excludeFiles = some ex → p ∈ ex → p ∉ st.files → p ∉ st'.files) ∧
  (∃ u, st'.addonsExcluded = st.addonsExcluded ++ u)

/-- Mid-run invariant tying a machine state to the canonical
oracle-free traversal: the machine is still running, the canonical
traversal of the remaining files succeeds, and the chunks already
pushed plus the pending header, the remaining chunks and the footer
make up the fixed total output. -/
def Inv (env : Env) (opts : Opts) (stF : St) (total : List Str) (m : MSt) : Prop :=
  m.status = Status.running ∧
  ∃ f cs, produceAll env opts f m.core = some (stF, cs) ∧
    total = m.out ++ (if m.headerWritten then [] else [env.header]) ++ cs ++
      [env.footer]

/-! ### Concrete fixtures

Small concrete environments used to instantiate the theorems below:
an entry `/a.js` that requires `./b` (resolving to `/b.js`), plus
variants for read failures, excluded files, and pathological relative
paths. -/

/-- Sample environment: `/a.js` requires `./b`, which resolves to
`/b.js`; `/b.js` has no references. -/
def sampleEnv : Env :=
  { header := "H".data, footer := "F".data,
    fileHeader := "<${id}:${path}|".data, fileFooter := "|${id}>".data,
    readFile := fun p =>
      if p = "/a.js".data then some ("var b = require(\"./b\");".data)
      else if p = "/b.js".data then some ("done".data) else none,
    isCore := fun _ => false,
    resolveSync := fun n _ _ => if n = "./b".data then some ("/b.js".data) else none,
    dirname := fun _ => "/".data,
    relative := fun _ p => p,
    extname := fun _ => ".js".data,
    resolvePath := id }

/-- Default options: nothing configured. -/
def sampleOpts : Opts :=
  { outputPath := none, excludeFiles := none, excludeNodeModules := false,
    browser := false }

/-- Entry path of the sample environment. -/
def entryA : Str := "/a.js".data

/-- Chunk emitted for `/a.js` in the sample environment. -/
def chunkA : Str := "<0:/a.js|var b = __require(1,0);|0>".data

/-- Chunk emitted for `/b.js` in the sample environment. -/
def chunkB : Str := "<1:/b.js|done|1>".data

/-- Final traversal state of the sample run. -/
def sampleFinalSt : St :=
  { files := ["/a.js".data, "/b.js".data], fileIndex := 2, addonsExcluded := [] }

/-- Final machine state of the sample run (any schedule). -/
def sampleM : MSt :=
  { core := sampleFinalSt, headerWritten := true, status := Status.ended,
    out := ["H".data, chunkA, chunkB, "F".data], errors := 0 }

/-- Environment whose every read fails. -/
def errEnv : Env := { sampleEnv with readFile := fun _ => none }

/-- Environment with an entry `/c.js` whose source carries a line
comment and no references. -/
def commentEnv : Env :=
  { sampleEnv with readFile := fun p =>
      if p = "/c.js".data then some ("x\n// c".data) else none }

/-- Entry path of `commentEnv`. -/
def entryC : Str := "/c.js".data

/-- Environment whose `path.relative` yields a path containing the
text `__filename`. -/
def pathoEnv : Env := { sampleEnv with relative := fun _ _ => "x__filename".data }

/-- Options with an output path configured. -/
def outOpts : Opts := { sampleOpts with outputPath := some ("/out/b.js".data) }

/-- Environment where `./a` resolves to the entry path `/a.js`. -/
def selfEnv : Env :=
  { sampleEnv with resolveSync := fun n _ _ =>
      if n = "./a".data then some entryA else none }

/-- Options excluding the entry path itself. -/
def exclOpts : Opts := { sampleOpts with excludeFiles := some [entryA] }

/-- Entry path given to the constructor in relative, unnormalised form. -/
def relEntry : Str := "./a".data

/-- Environment where `./x` resolves to the absolute path `/abs/a.js`
(the resolver's name for the same file the entry denotes). -/
def absEnv : Env :=
  { sampleEnv with resolveSync := fun n _ _ =>
      if n = "./x".data then some ("/abs/a.js".data) else none }

/-- Traversal state after `/a.js` has been added in the sample
environment: `/b.js` was appended by its reference. -/
def sampleSt1 : St :=
  { files := ["/a.js".data, "/b.js".data], fileIndex := 1, addonsExcluded := [] }

/-- Environment with a single self-contained entry `/s.js`. -/
def simpleEnv : Env :=
  { sampleEnv with readFile := fun p =>
      if p = "/s.js".data then some ("done".data) else none }

/-- Entry path of `simpleEnv`. -/
def entryS : Str := "/s.js".data

/-- Final machine state of the `simpleEnv` run. -/
def simpleM : MSt :=
  { core := { files := [entryS], fileIndex := 1, addonsExcluded := [] },
    headerWritten := true, status := Status.ended,
    out := ["H".data, "<0:/s.js|done|0>".data, "F".data], errors := 0 }

/-- Environment with a self-contained entry `/o.js`, used together with
an exclude set that names a different path. -/
def envO : Env :=
  { sampleEnv with readFile := fun p =>
      if p = "/o.js".data then some ("x".data) else none }

/-- Entry path of `envO`. -/
def entryO : Str := "/o.js".data

/-- Final machine state of the `envO` run. -/
def doneMO : MSt :=
  { core := { files := [entryO], fileIndex := 1, addonsExcluded := [] },
    headerWritten := true, status := Status.ended,
    out := ["H".data, "<0:/o.js|x|0>".data, "F".data], errors := 0 }

/-- Final machine state of the `commentEnv` run. -/
def commentM : MSt :=
  { core := { files := [entryC], fileIndex := 1, addonsExcluded := [] },
    headerWritten := true, status := Status.ended,
    out := ["H".data, "<0:/c.js|x|0>".data, "F".data], errors := 0 }

/-- Machine state of `errEnv` after a first demand signal: the header
is out, the failed read left the cursor in place and scheduled one
error notification. -/
def errM : MSt :=
  { core := initSt entryA, headerWritten := true, status := Status.errored,
    out := ["H".data], errors := 1 }

/-- Machine state with a completed traversal, used to exercise demand
signals arriving after completion. -/
def doneM : MSt :=
  { core := { files := [entryS], fileIndex := 1, addonsExcluded := [] },
    headerWritten := true, status := Status.ended, out := [], errors := 0 }

/-- Options with the exclude-third-party switch enabled. -/
def npmOpts : Opts := { sampleOpts with excludeNodeModules := true }

/-- Machine state reached when a demand signal arrives after
completion: the footer is pushed again, the traversal state is
untouched. -/
def doneMAfter : MSt := { doneM with out := ["F".data], status := Status.ended }

/-! ### Supporting lemmas: string utilities -/

theorem isPre_iff (p : Str) : ∀ s, isPre p s = true ↔ ∃ t, s = p ++ t := by
  induction p with
  | nil => intro s; simp [isPre]
  | cons a ps ih =>
    intro s
    cases s with
    | nil =>
      simp [isPre]
    | cons c cs =>
      simp only [isPre, Bool.and_eq_true, beq_iff_eq, ih, List.cons_append,
        List.cons.injEq]
      constructor
      · rintro ⟨rfl, t, rfl⟩; exact ⟨t, rfl, rfl⟩
      · rintro ⟨t, rfl, rfl⟩; exact ⟨rfl, t, rfl⟩

theorem isPre_append (p t : Str) : isPre p (p ++ t) = true :=
  (isPre_iff p (p ++ t)).2 ⟨t, rfl⟩

theorem dropLit_eq {p : Str} : ∀ {s r : Str}, dropLit p s = some r → s = p ++ r := by
  induction p with
  | nil =>
    intro s r h
    simp only [dropLit, Option.some.injEq] at h
    simpa using h
  | cons a ps ih =>
    intro s r h
    cases s with
    | nil => simp [dropLit] at h
    | cons c cs =>
      simp only [dropLit] at h
      split at h
      · next heq =>
        have hc : a = c := by simpa [beq_iff_eq] using heq
        subst hc
        simpa using ih h
      · exact absurd h (by simp)

theorem length_dropWhileLe (p : Char → Bool) : ∀ l : Str, (l.dropWhile p).length ≤ l.length := by
  intro l
  induction l with
  | nil => simp
  | cons c cs ih =>
    by_cases h : p c
    · rw [List.dropWhile_cons_of_pos h]; exact Nat.le_succ_of_le ih
    · rw [List.dropWhile_cons_of_neg h]

theorem nodup_append_single {l : List Str} {x : Str} (h : l.Nodup) (hx : x ∉ l) :
    (l ++ [x]).Nodup := by
  simpa [List.concat_eq_append] using List.Nodup.concat hx h

/-! ### Supporting lemmas: `jsIndexOf` -/

theorem jsIndexOfAux_of_not_mem {l : List Str} {x : Str} (hx : x ∉ l) :
    ∀ n, jsIndexOfAux l x n = -1 := by
  induction l with
  | nil => intro n; simp [jsIndexOfAux]
  | cons a as ih =>
    intro n
    have hax : ¬(a == x) = true := by
      simp only [beq_iff_eq]
      rintro rfl
      exact hx (List.mem_cons_self a as)
    simp only [jsIndexOfAux, if_neg hax]
    exact ih (fun hm => hx (List.mem_cons_of_mem a hm)) (n + 1)

theorem jsIndexOfAux_nonneg {l : List Str} {x : Str} (hx : x ∈ l) :
    ∀ n, 0 ≤ jsIndexOfAux l x n := by
  induction l with
  | nil => cases hx
  | cons a as ih =>
    intro n
    simp only [jsIndexOfAux]
    split
    · exact Int.ofNat_nonneg n
    · next hne =>
      have : x ∈ as := by
        rcases List.mem_cons.1 hx with rfl | hm
        · exact absurd (by simp [beq_iff_eq]) hne
        · exact hm
      exact ih this (n + 1)

theorem jsIndexOf_neg_iff {l : List Str} {x : Str} : jsIndexOf l x < 0 ↔ x ∉ l := by
  constructor
  · intro h hm
    have hn := jsIndexOfAux_nonneg hm 0
    rw [jsIndexOf] at h
    omega
  · intro hm
    rw [jsIndexOf, jsIndexOfAux_of_not_mem hm 0]
    omega

/-! ### Supporting lemmas: the step relation -/

theorem grows_refl (opts : Opts) (st : St) : GrowsTo opts st st :=
  ⟨⟨[], by simp⟩, fun h => h, fun _ _ _ _ h => h, ⟨[], by simp⟩⟩

theorem grows_trans {opts : Opts} {st1 st2 st3 : St}
    (h12 : GrowsTo opts st1 st2) (h23 : GrowsTo opts st2 st3) :
    GrowsTo opts st1 st3 := by
  obtain ⟨⟨t1, hf1⟩, hn1, he1, ⟨u1, ha1⟩⟩ := h12
  obtain ⟨⟨t2, hf2⟩, hn2, he2, ⟨u2, ha2⟩⟩ := h23
  refine ⟨⟨t1 ++ t2, by rw [hf2, hf1, List.append_assoc]⟩,
    fun h => hn2 (hn1 h), ?_,
    ⟨u1 ++ u2, by rw [ha2, ha1, List.append_assoc]⟩⟩
  intro ex p hex hp hnot
  exact he2 ex p hex hp (he1 ex p hex hp hnot)

/-- Growth facts about one replaced `require` call site: the file list
is unchanged, or a single new path (absent from the list, and absent
from the exclude set) is appended. -/
theorem replaceRequire_growsTo (env : Env) (opts : Opts) (fp : Str) (st : St)
    (matched mp : Str) :
    GrowsTo opts st (replaceRequire env opts fp st matched mp).1 := by
  unfold replaceRequire
  split
  · exact grows_refl _ _
  split
  · exact grows_refl _ _
  split
  · exact grows_refl _ _
  next resolved heq =>
    split
    · exact grows_refl _ _
    split
    · exact ⟨⟨[], by simp⟩, fun h => h, fun _ _ _ _ h => h, ⟨[resolved], rfl⟩⟩
    split
    · next hlt =>
      have hnotmem : resolved ∉ st.files := jsIndexOf_neg_iff.1 hlt
      split
      · next hnone =>
        refine ⟨⟨[resolved], rfl⟩, fun h => nodup_append_single h hnotmem, ?_,
          ⟨[], by simp⟩⟩
        intro ex p hex _ _
        rw [hnone] at hex
        cases hex
      · next ex' hsome =>
        split
        · next hexneg =>
          have hres : resolved ∉ ex' := jsIndexOf_neg_iff.1 hexneg
          refine ⟨⟨[resolved], rfl⟩, fun h => nodup_append_single h hnotmem, ?_,
            ⟨[], by simp⟩⟩
          intro ex p hex hp hnot
          rw [hsome] at hex
          cases hex
          simp only [List.mem_append, List.mem_singleton]
          rintro (hm | rfl)
          · exact hnot hm
          · exact hres hp
        · exact grows_refl _ _
    · exact grows_refl _ _

/-- Growth facts accumulated over the whole `require` replacement pass
of one file. -/
theorem requireReplaceGo_growsTo (env : Env) (opts : Opts) (fp : Str) :
    ∀ (fuel : Nat) (cs : Str) (st : St),
      GrowsTo opts st (requireReplaceGo env opts fp fuel cs st).2 := by
  intro fuel
  induction fuel with
  | zero => intro cs st; exact grows_refl _ _
  | succ fuel ih =>
    intro cs st
    cases cs with
    | nil => exact grows_refl _ _
    | cons c cs =>
      rw [requireReplaceGo]
      cases hm : matchRequireAt (c :: cs) with
      | some pr =>
        cases pr with
        | mk body rest =>
          simp only []
          exact grows_trans (replaceRequire_growsTo env opts fp st _ body)
            (ih rest _)
      | none =>
        simp only []
        exact ih cs st

/-- Growth facts about `_addFile`. -/
theorem addFile_growsTo {env : Env} {opts : Opts} {st st' : St} {fp chunk : Str}
    (h : addFile env opts st fp = some (st', chunk)) :
    GrowsTo opts st st' := by
  unfold addFile at h
  cases hr : env.readFile fp with
  | none => rw [hr] at h; cases h
  | some code0 =>
    rw [hr] at h
    simp only [Option.some.injEq, Prod.mk.injEq] at h
    have hst : st' = (scanRequires env opts fp (stripComments code0)
        { st with fileIndex := st.fileIndex + 1 }).2 := h.1.symm
    rw [hst]
    have h1 : GrowsTo opts st ({ st with fileIndex := st.fileIndex + 1 } : St) :=
      ⟨⟨[], by simp⟩, fun h => h, fun _ _ _ _ h => h, ⟨[], by simp⟩⟩
    exact grows_trans h1 (requireReplaceGo_growsTo env opts fp _ _ _)

/-- Growth facts about one invocation of the file loop. -/
theorem loopFiles_growsTo {env : Env} {opts : Opts} {oracle : Nat → Bool} :
    ∀ {fuel : Nat} {m m' : MSt},
      loopFiles env opts oracle fuel m = some m' →
      GrowsTo opts m.core m'.core := by
  intro fuel
  induction fuel with
  | zero => intro m m' h; cases h
  | succ fuel ih =>
    intro m m' h
    rw [loopFiles] at h
    split at h
    · cases haf : addFile env opts m.core
          (m.core.files.get ⟨m.core.fileIndex, by assumption⟩) with
      | none =>
        rw [haf] at h
        cases h
        exact grows_refl _ _
      | some pr =>
        cases pr with
        | mk st' chunk =>
          rw [haf] at h
          simp only [pushChunk] at h
          split at h
          · exact grows_trans (addFile_growsTo haf) (ih h)
          · cases h
            exact addFile_growsTo haf
    · simp only [pushChunk] at h
      cases h
      exact grows_refl _ _

/-- Growth facts about one `_continueProcessing` call. -/
theorem contProc_growsTo {env : Env} {opts : Opts} {oracle : Nat → Bool}
    {fuel : Nat} {m m' : MSt} (h : contProc env opts oracle fuel m = some m') :
    GrowsTo opts m.core m'.core := by
  unfold contProc at h
  split at h
  · exact loopFiles_growsTo h
  · simp only [pushChunk] at h
    split at h
    · have h2 := loopFiles_growsTo h
      simpa using h2
    · cases h
      exact grows_refl _ _

/-- Growth facts about a complete run. -/
theorem runDemands_growsTo {env : Env} {opts : Opts} {oracle : Nat → Bool} :
    ∀ {n : Nat} {m m' : MSt},
      runDemands env opts oracle n m = some m' →
      GrowsTo opts m.core m'.core := by
  intro n
  induction n with
  | zero =>
    intro m m' h
    rw [runDemands] at h
    split at h
    · cases h; exact grows_refl _ _
    · cases h
  | succ n ih =>
    intro m m' h
    rw [runDemands] at h
    split at h
    · cases h; exact grows_refl _ _
    · cases hc : contProc env opts oracle (n + 1) m with
      | none => rw [hc] at h; cases h
      | some m1 =>
        rw [hc] at h
        exact grows_trans (contProc_growsTo hc) (ih h)

/-! ### Supporting lemmas: simulation of runs by the canonical traversal -/

/-- One invocation of the file loop either finishes the run (emitting
exactly the canonical chunks and the footer) or pauses on backpressure
with a prefix of the canonical chunks emitted and the canonical
traversal still describing the rest. -/
theorem loopFiles_sim {env : Env} {opts : Opts} {oracle : Nat → Bool} {stF : St} :
    ∀ {fuel : Nat} {m m' : MSt} {f : Nat} {cs : List Str},
      loopFiles env opts oracle fuel m = some m' →
      produceAll env opts f m.core = some (stF, cs) →
      (m'.status = Status.ended ∧ m'.core = stF ∧
        m'.out = m.out ++ cs ++ [env.footer] ∧ m'.errors = m.errors ∧
        m'.headerWritten = m.headerWritten) ∨
      (m'.status = m.status ∧ m'.errors = m.errors ∧
        m'.headerWritten = m.headerWritten ∧
        ∃ cs1 cs2 f2, cs = cs1 ++ cs2 ∧ m'.out = m.out ++ cs1 ∧
          produceAll env opts f2 m'.core = some (stF, cs2)) := by
  intro fuel
  induction fuel with
  | zero => intro m m' f cs h _; cases h
  | succ fuel ih =>
    intro m m' f cs h hp
    rw [loopFiles] at h
    split at h
    · next hlt =>
      cases f with
      | zero => rw [produceAll] at hp; cases hp
      | succ f =>
        rw [produceAll, dif_pos hlt] at hp
        split at h
        · next heq =>
          split at hp
          · cases hp
          · next heq2 => rw [heq] at heq2; cases heq2
        · next st' chunk heq =>
          simp only [pushChunk] at h
          split at hp
          · cases hp
          · next st2 chunk2 heq2 =>
            rw [heq, Option.some.injEq, Prod.mk.injEq] at heq2
            obtain ⟨rfl, rfl⟩ := heq2
            split at hp
            · cases hp
            · next stq csq heq4 =>
              rw [Option.some.injEq, Prod.mk.injEq] at hp
              obtain ⟨rfl, rfl⟩ := hp
              split at h
              · have hp2 : produceAll env opts f
                    ({ m with core := st', out := m.out ++ [chunk] } : MSt).core =
                    some (stq, csq) := by simpa using heq4
                rcases ih h hp2 with
                  ⟨hst, hcore, hout, herr, hhw⟩ |
                  ⟨hst, herr, hhw, cs1, cs2, f2, hcs, hout, hrest⟩
                · left
                  refine ⟨hst, hcore, ?_, herr, hhw⟩
                  rw [hout]
                  simp
                · right
                  refine ⟨hst, herr, hhw, chunk :: cs1, cs2, f2, by simp [hcs],
                    ?_, hrest⟩
                  rw [hout]
                  simp
              · cases h
                right
                exact ⟨rfl, rfl, rfl, [chunk], csq, f, rfl, rfl, heq4⟩
    · next hge =>
      simp only [pushChunk] at h
      cases h
      cases f with
      | zero => rw [produceAll] at hp; cases hp
      | succ f =>
        rw [produceAll, dif_neg hge] at hp
        rw [Option.some.injEq, Prod.mk.injEq] at hp
        obtain ⟨rfl, rfl⟩ := hp
        left
        refine ⟨rfl, rfl, ?_, rfl, rfl⟩
        simp

/-- One `_continueProcessing` call either completes the run with the
total output or preserves the mid-run invariant. -/
theorem contProc_inv {env : Env} {opts : Opts} {oracle : Nat → Bool}
    {fuel : Nat} {m m' : MSt} {stF : St} {total : List Str}
    (hi : Inv env opts stF total m)
    (h : contProc env opts oracle fuel m = some m') :
    (m'.status = Status.ended ∧ m'.out = total ∧ m'.core = stF) ∨
      Inv env opts stF total m' := by
  obtain ⟨hrun, f, cs, hp, htot⟩ := hi
  unfold contProc at h
  split at h
  · next hw =>
    rcases loopFiles_sim h hp with
      ⟨hst, hcore, hout, _, _⟩ |
      ⟨hst, _, hhw, cs1, cs2, f2, hcs, hout, hrest⟩
    · left
      refine ⟨hst, ?_, hcore⟩
      rw [hout, htot]
      simp [hw]
    · right
      refine ⟨by rw [hst, hrun], f2, cs2, hrest, ?_⟩
      rw [htot, hcs, hout]
      simp [hw, hhw, List.append_assoc]
  · next hw =>
    simp only [pushChunk] at h
    have hwf : m.headerWritten = false := by
      cases hb : m.headerWritten
      · rfl
      · exact absurd hb hw
    split at h
    · have hp2 : produceAll env opts f
          ({ m with headerWritten := true, out := m.out ++ [env.header] } : MSt).core =
          some (stF, cs) := by simpa using hp
      rcases loopFiles_sim h hp2 with
        ⟨hst, hcore, hout, _, _⟩ |
        ⟨hst, _, hhw, cs1, cs2, f2, hcs, hout, hrest⟩
      · left
        refine ⟨hst, ?_, hcore⟩
        rw [hout, htot]
        simp [hwf]
      · right
        refine ⟨by rw [hst, hrun], f2, cs2, hrest, ?_⟩
        rw [htot, hcs, hout]
        simp only [hwf] at hhw ⊢
        simp [hhw, List.append_assoc]
    · cases h
      right
      refine ⟨hrun, f, cs, by simpa using hp, ?_⟩
      rw [htot]
      simp [hwf]

/-- A run that reaches the end of the stream has pushed exactly the
total output and holds the canonical final traversal state. -/
theorem runDemands_inv {env : Env} {opts : Opts} {oracle : Nat → Bool}
    {stF : St} {total : List Str} :
    ∀ {n : Nat} {m mF : MSt},
      (Inv env opts stF total m ∨
        (m.status = Status.ended ∧ m.out = total ∧ m.core = stF)) →
      runDemands env opts oracle n m = some mF →
      mF.status = Status.ended ∧ mF.out = total ∧ mF.core = stF := by
  intro n
  induction n with
  | zero =>
    intro m mF hi h
    rw [runDemands] at h
    split at h
    · next hend =>
      cases h
      rcases hi with ⟨hrun, _⟩ | hdone
      · rw [hend] at hrun
        cases hrun
      · exact ⟨hend, hdone.2.1, hdone.2.2⟩
    · cases h
  | succ n ih =>
    intro m mF hi h
    rw [runDemands] at h
    split at h
    · next hend =>
      cases h
      rcases hi with ⟨hrun, _⟩ | hdone
      · rw [hend] at hrun
        cases hrun
      · exact ⟨hend, hdone.2.1, hdone.2.2⟩
    · next hnend =>
      cases hc : contProc env opts oracle (n + 1) m with
      | none => rw [hc] at h; cases h
      | some m1 =>
        rw [hc] at h
        rcases hi with hInv | hdone
        · rcases contProc_inv hInv hc with hdone1 | hInv1
          · exact ih (Or.inr hdone1) h
          · exact ih (Or.inl hInv1) h
        · exact absurd hdone.1 hnend

/-! ### Supporting lemmas: files without reference call sites -/

theorem requireReplaceGo_id {env : Env} {opts : Opts} {fp : Str} :
    ∀ {fuel : Nat} {cs : Str} {st : St}, hasRequireSite cs = false →
      requireReplaceGo env opts fp fuel cs st = (cs, st) := by
  intro fuel
  induction fuel with
  | zero => intro cs st _; rfl
  | succ fuel ih =>
    intro cs st hs
    cases cs with
    | nil => rfl
    | cons c cs =>
      rw [hasRequireSite, Bool.or_eq_false_iff] at hs
      have h1 : matchRequireAt (c :: cs) = none := by
        cases hm : matchRequireAt (c :: cs) with
        | none => rfl
        | some pr => rw [hm] at hs; simp at hs
      rw [requireReplaceGo, h1]
      simp only [ih hs.2]

theorem addFile_simple {env : Env} {opts : Opts} {st : St} {fp raw : Str}
    (hr : env.readFile fp = some raw) (hc : stripComments raw = raw)
    (hs : hasRequireSite raw = false) (ho : opts.outputPath = none) :
    addFile env opts st fp = some ({ st with fileIndex := st.fileIndex + 1 },
      substIdPath env.fileHeader (jsIndexOf st.files fp) fp ++
      (if env.extname fp = ".json".data then "module.exports = ".data else []) ++
      raw ++
      substIdPath env.fileFooter (jsIndexOf st.files fp) fp) := by
  unfold addFile scanRequires applyDirnameFilename
  rw [hr]
  simp only [ho, hc, requireReplaceGo_id hs]

/-! ### Supporting lemmas: comment stripping -/

theorem commentMatchAt_none {c : Char} {cs : Str} (h : isLineTerm c = false) :
    commentMatchAt (c :: cs) = none := by
  have h1 : ¬c = '\n' := by
    rintro rfl; simp [isLineTerm] at h
  have h2 : ¬c = '\r' := by
    rintro rfl; simp [isLineTerm] at h
  rw [commentMatchAt.eq_def]
  split
  · next heq => rw [List.cons.injEq] at heq; exact absurd heq.1 h2
  · next heq => rw [List.cons.injEq] at heq; exact absurd heq.1 h2
  · next heq => rw [List.cons.injEq] at heq; exact absurd heq.1 h1
  · rfl

theorem stripCommentsGo_nil : ∀ fuel, stripCommentsGo fuel [] = [] := by
  intro fuel
  cases fuel <;> rfl

theorem stripCommentsGo_no_term :
    ∀ (fuel : Nat) (s : Str), (∀ c ∈ s, isLineTerm c = false) →
      s.length ≤ fuel → stripCommentsGo fuel s = s := by
  intro fuel
  induction fuel with
  | zero =>
    intro s _ hl
    rw [Nat.le_zero, List.length_eq_zero] at hl
    rw [hl, stripCommentsGo]
  | succ fuel ih =>
    intro s hterm hl
    cases s with
    | nil => rfl
    | cons c cs =>
      rw [stripCommentsGo, commentMatchAt_none (hterm c (List.mem_cons_self c cs))]
      rw [ih cs (fun d hd => hterm d (List.mem_cons_of_mem c hd))
        (by simpa using Nat.le_of_succ_le_succ (by simpa using hl))]

/-- Comments are stripped only after a line terminator: a string with
no line terminators, in particular a comment on the first line of a
file, is left unchanged. -/
theorem stripComments_no_term {s : Str} (h : ∀ c ∈ s, isLineTerm c = false) :
    stripComments s = s :=
  stripCommentsGo_no_term s.length s h (Nat.le_refl _)

theorem dropWhile_append_all {p : Char → Bool} :
    ∀ {ws l : Str}, (∀ c ∈ ws, p c = true) →
      List.dropWhile p (ws ++ l) = List.dropWhile p l := by
  intro ws
  induction ws with
  | nil => intro l _; rfl
  | cons w ws ih =>
    intro l h
    rw [List.cons_append, List.dropWhile_cons_of_pos (h w (List.mem_cons_self w ws))]
    exact ih (fun c hc => h c (List.mem_cons_of_mem w hc))

theorem commentTail_all {ws rest : Str} (hws : ∀ c ∈ ws, isSpaceJS c = true)
    (hrest : ∀ c ∈ rest, isLineTerm c = false) :
    commentTail (ws ++ '/' :: '/' :: rest) = some [] := by
  unfold commentTail
  rw [dropWhile_append_all hws,
    List.dropWhile_cons_of_neg (by simp [isSpaceJS])]
  have : List.dropWhile (fun c => !isLineTerm c) rest = [] :=
    List.dropWhile_eq_nil_iff.2 (fun x hx => by simp [hrest x hx])
  simp [this]

theorem stripComments_removes (pre ws rest : Str)
    (hpre : ∀ c ∈ pre, isLineTerm c = false)
    (hws : ∀ c ∈ ws, isSpaceJS c = true)
    (hrest : ∀ c ∈ rest, isLineTerm c = false) :
    stripComments (pre ++ '\n' :: (ws ++ '/' :: '/' :: rest)) = pre := by
  have main : ∀ (fuel : Nat) (pre2 : Str),
      (∀ c ∈ pre2, isLineTerm c = false) →
      (pre2 ++ '\n' :: (ws ++ '/' :: '/' :: rest)).length ≤ fuel →
      stripCommentsGo fuel (pre2 ++ '\n' :: (ws ++ '/' :: '/' :: rest)) = pre2 := by
    intro fuel
    induction fuel with
    | zero =>
      intro pre2 _ hl
      simp at hl
    | succ fuel ih =>
      intro pre2 hp hl
      cases pre2 with
      | nil =>
        rw [List.nil_append, stripCommentsGo]
        have hm : commentMatchAt ('\n' :: (ws ++ '/' :: '/' :: rest)) =
            some [] := by
          have : commentMatchAt ('\n' :: (ws ++ '/' :: '/' :: rest)) =
              commentTail (ws ++ '/' :: '/' :: rest) := rfl
          rw [this, commentTail_all hws hrest]
        rw [hm]
        exact stripCommentsGo_nil fuel
      | cons c pre2 =>
        rw [List.cons_append, stripCommentsGo,
          commentMatchAt_none (hp c (List.mem_cons_self c pre2))]
        rw [ih pre2 (fun d hd => hp d (List.mem_cons_of_mem c hd))
          (by simpa using Nat.le_of_succ_le_succ (by simpa using hl))]
  exact main _ pre hpre (Nat.le_refl _)

theorem commentTail_length {cs r : Str} (h : commentTail cs = some r) :
    r.length ≤ cs.length := by
  unfold commentTail at h
  split at h
  · next rest heq =>
    rw [Option.some.injEq] at h
    subst h
    have h1 := length_dropWhileLe isSpaceJS cs
    rw [heq] at h1
    simp only [List.length_cons] at h1
    have h2 := length_dropWhileLe (fun c => !isLineTerm c) rest
    omega
  · cases h

theorem commentMatchAt_length {c : Char} {cs r : Str}
    (h : commentMatchAt (c :: cs) = some r) : r.length ≤ cs.length := by
  rw [commentMatchAt.eq_def] at h
  split at h
  · next rest heq =>
    rw [List.cons.injEq] at heq
    have h2 := commentTail_length h
    rw [heq.2]
    simp only [List.length_cons]
    omega
  · next rest hne heq =>
    rw [List.cons.injEq] at heq
    have h2 := commentTail_length h
    rw [heq.2]
    exact h2
  · next rest heq =>
    rw [List.cons.injEq] at heq
    have h2 := commentTail_length h
    rw [heq.2]
    exact h2
  · cases h

theorem stripCommentsGo_congr :
    ∀ (f1 f2 : Nat) (s : Str), s.length ≤ f1 → s.length ≤ f2 →
      stripCommentsGo f1 s = stripCommentsGo f2 s := by
  intro f1
  induction f1 with
  | zero =>
    intro f2 s h1 _
    rw [Nat.le_zero, List.length_eq_zero] at h1
    subst h1
    rw [stripCommentsGo_nil, stripCommentsGo_nil]
  | succ f1 ih =>
    intro f2 s h1 h2
    cases s with
    | nil => rw [stripCommentsGo_nil, stripCommentsGo_nil]
    | cons c cs =>
      cases f2 with
      | zero => simp at h2
      | succ f2 =>
        rw [stripCommentsGo, stripCommentsGo]
        cases hm : commentMatchAt (c :: cs) with
        | none =>
          show c :: stripCommentsGo f1 cs = c :: stripCommentsGo f2 cs
          simp only [List.length_cons] at h1 h2
          rw [ih f2 cs (by omega) (by omega)]
        | some r =>
          show stripCommentsGo f1 r = stripCommentsGo f2 r
          have hr := commentMatchAt_length hm
          simp only [List.length_cons] at h1 h2
          exact ih f2 r (by omega) (by omega)

theorem stripCommentsGo_id :
    ∀ (fuel : Nat) (s : Str), hasCommentAt s = false →
      stripCommentsGo fuel s = s := by
  intro fuel
  induction fuel with
  | zero => intro s _; rfl
  | succ fuel ih =>
    intro s hc
    cases s with
    | nil => rfl
    | cons c cs =>
      rw [hasCommentAt, Bool.or_eq_false_iff] at hc
      have hm : commentMatchAt (c :: cs) = none := by
        cases hmm : commentMatchAt (c :: cs) with
        | none => rfl
        | some r => rw [hmm] at hc; simp at hc
      rw [stripCommentsGo, hm]
      show c :: stripCommentsGo fuel cs = c :: cs
      rw [ih cs hc.2]

/-- Text in which the comment pattern matches nowhere is copied
verbatim by the stripping pass. -/
theorem stripComments_id {s : Str} (h : hasCommentAt s = false) :
    stripComments s = s :=
  stripCommentsGo_id s.length s h

/-- The comment pattern cannot match anywhere in terminator-free text
(every match begins with a line terminator). -/
theorem hasCommentAt_no_term {s : Str} (h : ∀ c ∈ s, isLineTerm c = false) :
    hasCommentAt s = false := by
  induction s with
  | nil => rfl
  | cons c cs ih =>
    rw [hasCommentAt, commentMatchAt_none (h c (List.mem_cons_self c cs)),
      ih (fun d hd => h d (List.mem_cons_of_mem c hd))]
    rfl

theorem commentTail_gen {ws rest tail : Str}
    (hws : ∀ c ∈ ws, isSpaceJS c = true)
    (hrest : ∀ c ∈ rest, isLineTerm c = false)
    (htail : atLineBound tail = true) :
    commentTail (ws ++ '/' :: '/' :: (rest ++ tail)) = some tail := by
  unfold commentTail
  rw [dropWhile_append_all hws,
    List.dropWhile_cons_of_neg (by simp [isSpaceJS])]
  show some (List.dropWhile (fun c => !isLineTerm c) (rest ++ tail)) = some tail
  rw [dropWhile_append_all (fun c hc => by simp [hrest c hc])]
  cases tail with
  | nil => rfl
  | cons t ts =>
    rw [atLineBound] at htail
    rw [List.dropWhile_cons_of_neg (by simp [htail])]

theorem commentMatchAt_cr {w : Char} {z : Str} (hw : ¬ w = '\n') :
    commentMatchAt ('\r' :: w :: z) = commentTail (w :: z) := by
  rw [commentMatchAt.eq_def]
  split
  · next rest heq =>
    rw [List.cons.injEq, List.cons.injEq] at heq
    exact absurd heq.2.1 hw
  · next hne heq =>
    rw [List.cons.injEq] at heq
    rw [← heq.2]
  · next rest heq =>
    rw [List.cons.injEq] at heq
    exact absurd heq.1 (by decide)
  · next h1 h2 h3 =>
    exact ((h2 (w :: z)) rfl).elim

/-- The comment pattern matches a whole removable run, for any of the
three terminator forms, consuming it exactly: the remainder is the
continuation at the next line boundary. -/
theorem commentMatchAt_run {term ws rest tail : Str}
    (hterm : term = ['\n'] ∨ term = ['\r'] ∨ term = ['\r', '\n'])
    (hws : ∀ c ∈ ws, isSpaceJS c = true)
    (hrest : ∀ c ∈ rest, isLineTerm c = false)
    (htail : atLineBound tail = true) :
    commentMatchAt (commentRun term ws rest ++ tail) = some tail := by
  have hshape : commentRun term ws rest ++ tail =
      term ++ (ws ++ ('/' :: '/' :: (rest ++ tail))) := by
    simp [commentRun]
  rw [hshape]
  rcases hterm with rfl | rfl | rfl
  · show commentTail (ws ++ '/' :: '/' :: (rest ++ tail)) = some tail
    exact commentTail_gen hws hrest htail
  · cases ws with
    | nil =>
      show commentTail ([] ++ '/' :: '/' :: (rest ++ tail)) = some tail
      exact commentTail_gen (fun c hc => absurd hc (List.not_mem_nil c))
        hrest htail
    | cons w ws2 =>
      by_cases hw : w = '\n'
      · subst hw
        show commentTail (ws2 ++ '/' :: '/' :: (rest ++ tail)) = some tail
        exact commentTail_gen
          (fun c hc => hws c (List.mem_cons_of_mem _ hc)) hrest htail
      · rw [show ['\r'] ++ ((w :: ws2) ++ ('/' :: '/' :: (rest ++ tail))) =
            '\r' :: w :: (ws2 ++ ('/' :: '/' :: (rest ++ tail))) from by simp,
          commentMatchAt_cr hw]
        exact commentTail_gen hws hrest htail
  · show commentTail (ws ++ '/' :: '/' :: (rest ++ tail)) = some tail
    exact commentTail_gen hws hrest htail

/-- Removal of one comment run at an arbitrary position: a prefix in
which no comment match starts is copied verbatim, the run (its line
terminator included) is deleted, and stripping continues on the
continuation at the following line boundary. -/
theorem stripComments_decomp {term ws rest tail : Str}
    (hterm : term = ['\n'] ∨ term = ['\r'] ∨ term = ['\r', '\n'])
    (hws : ∀ c ∈ ws, isSpaceJS c = true)
    (hrest : ∀ c ∈ rest, isLineTerm c = false)
    (htail : atLineBound tail = true) :
    ∀ pre : Str, noCommentStart (commentRun term ws rest ++ tail) pre = true →
      stripComments (pre ++ (commentRun term ws rest ++ tail)) =
        pre ++ stripComments tail := by
  have hterm1 : 1 ≤ term.length := by
    rcases hterm with rfl | rfl | rfl <;> simp
  have main : ∀ (fuel : Nat) (pre : Str),
      noCommentStart (commentRun term ws rest ++ tail) pre = true →
      (pre ++ (commentRun term ws rest ++ tail)).length ≤ fuel →
      stripCommentsGo fuel (pre ++ (commentRun term ws rest ++ tail)) =
        pre ++ stripComments tail := by
    intro fuel
    induction fuel with
    | zero =>
      intro pre _ hl
      simp only [commentRun, List.length_append, List.length_cons,
        Nat.le_zero] at hl
      omega
    | succ fuel ih =>
      intro pre hpre hl
      cases pre with
      | nil =>
        rw [List.nil_append]
        obtain ⟨c0, s0, hshape⟩ : ∃ c0 s0,
            commentRun term ws rest ++ tail = c0 :: s0 := by
          rcases hterm with rfl | rfl | rfl
          · exact ⟨'\n', (ws ++ ('/' :: '/' :: rest)) ++ tail,
              by simp [commentRun]⟩
          · exact ⟨'\r', (ws ++ ('/' :: '/' :: rest)) ++ tail,
              by simp [commentRun]⟩
          · exact ⟨'\r', ('\n' :: (ws ++ ('/' :: '/' :: rest))) ++ tail,
              by simp [commentRun]⟩
        rw [hshape, stripCommentsGo, ← hshape,
          commentMatchAt_run hterm hws hrest htail]
        show stripCommentsGo fuel tail = stripComments tail
        have hlen : tail.length ≤ fuel := by
          rw [hshape] at hl
          have : tail.length ≤ s0.length := by
            have h2 : (commentRun term ws rest ++ tail).length =
                (commentRun term ws rest).length + tail.length := by
              simp
            rw [hshape] at h2
            simp only [List.length_cons] at h2
            have h3 : 1 ≤ (commentRun term ws rest).length := by
              simp [commentRun]
              omega
            omega
          simp only [List.nil_append, List.length_cons] at hl
          omega
        exact stripCommentsGo_congr fuel tail.length tail hlen (Nat.le_refl _)
      | cons c pre2 =>
        rw [noCommentStart, Bool.and_eq_true] at hpre
        have hm : commentMatchAt
            (c :: (pre2 ++ (commentRun term ws rest ++ tail))) = none := by
          cases hmm : commentMatchAt
              (c :: (pre2 ++ (commentRun term ws rest ++ tail))) with
          | none => rfl
          | some r =>
            have := hpre.1
            rw [hmm] at this
            simp at this
        rw [List.cons_append, stripCommentsGo, hm]
        show c :: stripCommentsGo fuel (pre2 ++ (commentRun term ws rest ++ tail)) =
          (c :: pre2) ++ stripComments tail
        rw [ih pre2 hpre.2 (by simp only [List.cons_append,
          List.length_cons] at hl; omega)]
        rfl
  intro pre hpre
  exact main _ pre hpre (Nat.le_refl _)

/-! ### Supporting lemmas: completion stability -/

theorem contProc_done_core {env : Env} {opts : Opts} {oracle : Nat → Bool}
    {fuel : Nat} {m m' : MSt} (hw : m.headerWritten = true)
    (hdone : m.core.files.length ≤ m.core.fileIndex)
    (h : contProc env opts oracle fuel m = some m') : m'.core = m.core := by
  unfold contProc at h
  rw [if_pos hw] at h
  cases fuel with
  | zero => cases h
  | succ fuel =>
    rw [loopFiles, dif_neg (by omega)] at h
    simp only [pushChunk] at h
    cases h
    rfl

/-! ### Supporting lemmas: path prefixes and unescaping -/

theorem jsPathPrefixTest_iff (p : Str) :
    jsPathPrefixTest p = true ↔
      (isPre ("./".data) p = true ∨ isPre ("../".data) p = true ∨
        isPre ("/".data) p = true) := by
  constructor
  · intro h
    rw [jsPathPrefixTest.eq_def] at h
    split at h
    · next t => exact Or.inr (Or.inr ((isPre_iff _ _).2 ⟨t, rfl⟩))
    · next t => exact Or.inl ((isPre_iff _ _).2 ⟨t, rfl⟩)
    · next t => exact Or.inr (Or.inl ((isPre_iff _ _).2 ⟨t, rfl⟩))
    · cases h
  · intro h
    rcases h with h | h | h <;> obtain ⟨t, rfl⟩ := (isPre_iff _ _).1 h <;> rfl

theorem unescapeFirst_cons_nb {c : Char} {cs : Str} (h : (c == bslash) = false) :
    unescapeFirst (c :: cs) = c :: unescapeFirst cs := by
  cases cs with
  | nil => rfl
  | cons c2 cs2 =>
    rw [unescapeFirst, h]
    simp

theorem jsPathPrefixTest_unescape {mp : Str}
    (h : isPre ("./".data) mp = true ∨ isPre ("../".data) mp = true ∨
      isPre ("/".data) mp = true) :
    jsPathPrefixTest (unescapeFirst mp) = true := by
  rcases h with h | h | h <;> obtain ⟨t, rfl⟩ := (isPre_iff _ _).1 h
  · rw [show ("./".data) ++ t = '.' :: '/' :: t from rfl,
      unescapeFirst_cons_nb (by decide), unescapeFirst_cons_nb (by decide)]
    rfl
  · rw [show ("../".data) ++ t = '.' :: '.' :: '/' :: t from rfl,
      unescapeFirst_cons_nb (by decide), unescapeFirst_cons_nb (by decide),
      unescapeFirst_cons_nb (by decide)]
    rfl
  · rw [show ("/".data) ++ t = '/' :: t from rfl,
      unescapeFirst_cons_nb (by decide)]
    rfl

/-! ### Supporting lemmas: individual call-site outcomes -/

/-- Dichotomy of one replaced call site: either the file list is
unchanged, or a single path not previously present is appended. -/
theorem replaceRequire_files_cases (env : Env) (opts : Opts) (fp : Str)
    (st : St) (matched mp : Str) :
    (replaceRequire env opts fp st matched mp).1.files = st.files ∨
    ∃ q, q ∉ st.files ∧
      (replaceRequire env opts fp st matched mp).1.files = st.files ++ [q] := by
  unfold replaceRequire
  split
  · left; rfl
  split
  · left; rfl
  split
  · left; rfl
  next resolved heq =>
    split
    · left; rfl
    split
    · left; rfl
    split
    · next hlt =>
      split
      · right; exact ⟨resolved, jsIndexOf_neg_iff.1 hlt, rfl⟩
      · split
        · right; exact ⟨resolved, jsIndexOf_neg_iff.1 hlt, rfl⟩
        · left; rfl
    · left; rfl

/-- A call site resolving to a path of the exclude set that is not in
the file list is left byte-identical and adds nothing to the file
list. -/
theorem replaceRequire_excluded {env : Env} {opts : Opts} {fp : Str} {st : St}
    {matched mp : Str} {ex : List Str} {resolved : Str}
    (hex : opts.excludeFiles = some ex)
    (hres : env.resolveSync (unescapeFirst mp) (env.dirname fp) opts.browser =
      some resolved)
    (hmem : resolved ∈ ex) (hnot : resolved ∉ st.files) :
    (replaceRequire env opts fp st matched mp).2 = matched ∧
      (replaceRequire env opts fp st matched mp).1.files = st.files := by
  unfold replaceRequire
  split
  · exact ⟨rfl, rfl⟩
  split
  · exact ⟨rfl, rfl⟩
  split
  · next heq => rw [hres] at heq; cases heq
  next r heq =>
    rw [hres, Option.some.injEq] at heq
    subst heq
    split
    · exact ⟨rfl, rfl⟩
    split
    · exact ⟨rfl, rfl⟩
    split
    · next hlt =>
      split
      · next heq2 => rw [hex] at heq2; cases heq2
      · next ex2 heq2 =>
        rw [hex, Option.some.injEq] at heq2
        subst heq2
        rw [if_neg (fun hlt2 => (jsIndexOf_neg_iff.1 hlt2) hmem)]
        exact ⟨rfl, rfl⟩
    · next hge => exact absurd (jsIndexOf_neg_iff.2 hnot) hge

/-- A call site resolving to a fresh, includable path appends it to the
file list and rewrites the site to an indexed-reference call whose
target id is the new path's index (the previous list length). -/
theorem replaceRequire_appends {env : Env} {opts : Opts} {fp : Str} {st : St}
    {matched mp resolved : Str}
    (h1 : (env.isCore mp && !opts.browser) = false)
    (h2 : (opts.excludeNodeModules && !jsPathPrefixTest (unescapeFirst mp)) = false)
    (hres : env.resolveSync (unescapeFirst mp) (env.dirname fp) opts.browser =
      some resolved)
    (h3 : env.isCore resolved = false)
    (h4 : (env.extname resolved).map Char.toLower ≠ ".node".data)
    (h5 : resolved ∉ st.files)
    (h6 : opts.excludeFiles = none) :
    (replaceRequire env opts fp st matched mp).1.files = st.files ++ [resolved] ∧
    (replaceRequire env opts fp st matched mp).2 =
      requireCallText (Int.ofNat st.files.length)
        (jsIndexOf (st.files ++ [resolved]) fp) := by
  unfold replaceRequire
  rw [if_neg (by simp [h1]), if_neg (by simp [h2])]
  split
  · next heq => rw [hres] at heq; cases heq
  next r heq =>
    rw [hres, Option.some.injEq] at heq
    subst heq
    rw [if_neg (by simp [h3]), if_neg h4, if_pos (jsIndexOf_neg_iff.2 h5)]
    split
    · exact ⟨rfl, rfl⟩
    · next ex heq2 => rw [h6] at heq2; cases heq2

/-- With the exclude-third-party switch on, a requested name that is
not a relative or absolute filesystem path is left unmodified and
nothing is recorded; the resolver plays no part (the environment is
arbitrary and the conclusion does not mention it). -/
theorem replaceRequire_nonpath_excluded {env : Env} {opts : Opts} {fp : Str}
    {st : St} {matched mp : Str} (hexn : opts.excludeNodeModules = true)
    (hpre : jsPathPrefixTest (unescapeFirst mp) = false) :
    replaceRequire env opts fp st matched mp = (st, matched) := by
  unfold replaceRequire
  split
  · rfl
  · rw [if_pos (by simp [hexn, hpre])]

/-- For a requested name beginning with `./`, `../` or `/`, the
exclude-third-party switch makes no difference. -/
theorem replaceRequire_toggle {env : Env} {opts : Opts} {fp : Str} {st : St}
    {matched mp : Str}
    (h : isPre ("./".data) mp = true ∨ isPre ("../".data) mp = true ∨
      isPre ("/".data) mp = true) :
    replaceRequire env { opts with excludeNodeModules := true } fp st matched mp =
      replaceRequire env { opts with excludeNodeModules := false } fp st matched mp := by
  have hpre := jsPathPrefixTest_unescape h
  simp [replaceRequire, hpre]

/-- Unescaping is the identity on names containing no backslash. -/
theorem unescapeFirst_id {mp : Str} (h : ∀ c ∈ mp, (c == bslash) = false) :
    unescapeFirst mp = mp := by
  induction mp with
  | nil => rfl
  | cons c cs ih =>
    rw [unescapeFirst_cons_nb (h c (List.mem_cons_self c cs)),
      ih (fun d hd => h d (List.mem_cons_of_mem c hd))]

/-- A demand signal reaching a state whose next file is unreadable
schedules exactly one more error notification, pushes nothing, and
leaves the traversal state (cursor included) unchanged. -/
theorem contProc_read_error {env : Env} {opts : Opts} {oracle : Nat → Bool}
    {fuel : Nat} {m : MSt} (hfuel : 1 ≤ fuel) (hw : m.headerWritten = true)
    (h : m.core.fileIndex < m.core.files.length)
    (hread : env.readFile (m.core.files.get ⟨m.core.fileIndex, h⟩) = none) :
    contProc env opts oracle fuel m =
      some { m with status := Status.errored, errors := m.errors + 1 } := by
  unfold contProc
  rw [if_pos hw]
  cases fuel with
  | zero => omega
  | succ fuel =>
    rw [loopFiles, dif_pos h]
    have haf : addFile env opts m.core
        (m.core.files.get ⟨m.core.fileIndex, h⟩) = none := by
      unfold addFile
      rw [hread]
    rw [haf]

/-- Canonical traversal of a project whose entry produces one chunk and
discovers no further files. -/
theorem produceAll_simpleRun {env : Env} {opts : Opts} {entry : Str} {st1 : St}
    {chunk : Str} (hadd : addFile env opts (initSt entry) entry = some (st1, chunk))
    (hfin : ¬ st1.fileIndex < st1.files.length) :
    produceAll env opts 2 (initSt entry) = some (st1, [chunk]) := by
  have h0 : (initSt entry).fileIndex < (initSt entry).files.length := by
    simp [initSt]
  have hget : (initSt entry).files.get ⟨(initSt entry).fileIndex, h0⟩ = entry := rfl
  rw [produceAll, dif_pos h0, hget, hadd]
  show (match produceAll env opts 1 st1 with
    | none => none
    | some (st2, cs) => some (st2, chunk :: cs)) = some (st1, [chunk])
  rw [produceAll, dif_neg hfin]

/-! ### Supporting lemmas: global literal replacement -/

theorem replaceAllGo_nil {pat repl : Str} :
    ∀ fuel, replaceAllGo pat repl fuel [] = [] := by
  intro fuel
  cases fuel <;> rfl

theorem replaceAllGo_of_not_contains {pat repl : Str} :
    ∀ (fuel : Nat) (s : Str), containsSub pat s = false →
      replaceAllGo pat repl fuel s = s := by
  intro fuel
  induction fuel with
  | zero => intro s _; rfl
  | succ fuel ih =>
    intro s hc
    cases s with
    | nil => rfl
    | cons c cs =>
      rw [containsSub, Bool.or_eq_false_iff] at hc
      have hpe : pat.isEmpty = false := by
        cases hp : pat with
        | nil => rw [hp] at hc; simp [isPre] at hc
        | cons p ps => simp [hp]
      rw [replaceAllGo, if_neg (by simp [hpe]), if_neg (by simp [hc.1]),
        ih cs hc.2]

theorem replaceAllSub_of_not_contains {pat repl s : Str}
    (h : containsSub pat s = false) : replaceAllSub pat repl s = s :=
  replaceAllGo_of_not_contains _ s h

theorem replaceAllGo_congr {pat repl : Str} :
    ∀ (f1 f2 : Nat) (s : Str), s.length ≤ f1 → s.length ≤ f2 →
      replaceAllGo pat repl f1 s = replaceAllGo pat repl f2 s := by
  intro f1
  induction f1 with
  | zero =>
    intro f2 s h1 _
    rw [Nat.le_zero, List.length_eq_zero] at h1
    subst h1
    rw [replaceAllGo_nil, replaceAllGo_nil]
  | succ f1 ih =>
    intro f2 s h1 h2
    cases s with
    | nil => rw [replaceAllGo_nil, replaceAllGo_nil]
    | cons c cs =>
      cases f2 with
      | zero => simp at h2
      | succ f2 =>
        rw [replaceAllGo, replaceAllGo]
        by_cases hpe : pat.isEmpty = true
        · rw [if_pos hpe, if_pos hpe]
        · rw [if_neg hpe, if_neg hpe]
          have hplen : 1 ≤ pat.length := by
            cases hp : pat with
            | nil => rw [hp] at hpe; simp at hpe
            | cons q qs => simp [hp]
          by_cases hpre : isPre pat (c :: cs) = true
          · rw [if_pos hpre, if_pos hpre]
            have hd1 : ((c :: cs).drop pat.length).length ≤ f1 := by
              rw [List.length_drop]
              simp only [List.length_cons] at h1 ⊢
              omega
            have hd2 : ((c :: cs).drop pat.length).length ≤ f2 := by
              rw [List.length_drop]
              simp only [List.length_cons] at h2 ⊢
              omega
            rw [ih f2 _ hd1 hd2]
          · rw [if_neg hpre, if_neg hpre]
            have hc1 : cs.length ≤ f1 := by
              simp only [List.length_cons] at h1
              omega
            have hc2 : cs.length ≤ f2 := by
              simp only [List.length_cons] at h2
              omega
            rw [ih f2 cs hc1 hc2]

/-- Global replacement rewrites the leftmost occurrence and continues
after it: splitting the subject at an occurrence with no earlier
occurrence yields the replaced text followed by the replacement of the
tail. -/
theorem replaceAllSub_decomp {pat repl : Str} (hne : pat ≠ []) :
    ∀ (a b : Str), noEarlierOcc pat b a = true →
      replaceAllSub pat repl (a ++ pat ++ b) =
        a ++ repl ++ replaceAllSub pat repl b := by
  obtain ⟨p, ps, rfl⟩ : ∃ p ps, pat = p :: ps := by
    cases hp : pat with
    | nil => exact absurd hp hne
    | cons p ps => exact ⟨p, ps, rfl⟩
  have main : ∀ (a : Str) (fuel : Nat) (b : Str),
      noEarlierOcc (p :: ps) b a = true →
      (a ++ (p :: ps) ++ b).length ≤ fuel →
      replaceAllGo (p :: ps) repl fuel (a ++ (p :: ps) ++ b) =
        a ++ repl ++ replaceAllSub (p :: ps) repl b := by
    intro a
    induction a with
    | nil =>
      intro fuel b _ hl
      cases fuel with
      | zero =>
        simp only [List.nil_append, List.length_append, List.length_cons,
          Nat.le_zero] at hl
        omega
      | succ fuel =>
        rw [List.nil_append, List.cons_append, replaceAllGo]
        have hpre : isPre (p :: ps) (p :: (ps ++ b)) = true := by
          have h2 := isPre_append (p :: ps) b
          rwa [List.cons_append] at h2
        rw [if_neg (by simp), if_pos hpre]
        have hdrop : (p :: (ps ++ b)).drop (p :: ps).length = b := by
          rw [← List.cons_append, List.drop_left]
        rw [hdrop]
        have hb : b.length ≤ fuel := by
          simp only [List.nil_append, List.length_append, List.length_cons] at hl
          omega
        rw [replaceAllGo_congr fuel b.length b hb (Nat.le_refl _)]
        rfl
    | cons c a ih =>
      intro fuel b hno hl
      rw [noEarlierOcc, Bool.and_eq_true] at hno
      cases fuel with
      | zero =>
        simp only [List.length_append, List.length_cons, Nat.le_zero] at hl
        omega
      | succ fuel =>
        have hshape : ((c :: a) ++ (p :: ps) ++ b) =
            c :: (a ++ (p :: ps) ++ b) := by simp
        rw [hshape, replaceAllGo]
        have hnp : isPre (p :: ps) (c :: (a ++ p :: (ps ++ b))) = false := by
          simpa using hno.1
        rw [if_neg (by simp), if_neg (by simp [hnp])]
        have hlen : (a ++ (p :: ps) ++ b).length ≤ fuel := by
          simp only [List.length_append, List.length_cons] at hl ⊢
          omega
        rw [ih fuel b hno.2 hlen]
        simp
  intro a b hno
  exact main a _ b hno (Nat.le_refl _)

/-! ### Supporting lemmas: reverse simulation -/

/-- The file loop never touches the header flag. -/
theorem loopFiles_hw {env : Env} {opts : Opts} {oracle : Nat → Bool} :
    ∀ {fuel : Nat} {m m' : MSt},
      loopFiles env opts oracle fuel m = some m' →
      m'.headerWritten = m.headerWritten := by
  intro fuel
  induction fuel with
  | zero => intro m m' h; cases h
  | succ fuel ih =>
    intro m m' h
    rw [loopFiles] at h
    split at h
    · split at h
      · cases h; rfl
      · simp only [pushChunk] at h
        split at h
        · have h2 := ih h
          exact h2
        · cases h; rfl
    · simp only [pushChunk] at h
      cases h
      rfl

/-- Reverse simulation of one file-loop invocation: ending the stream
certifies that the canonical traversal of the starting state succeeds;
pausing reduces success of the starting state to success of the paused
state; erroring pins an unreadable file at the cursor. -/
theorem loopFiles_complete {env : Env} {opts : Opts} {oracle : Nat → Bool} :
    ∀ {fuel : Nat} {m m' : MSt}, m.status = Status.running →
      loopFiles env opts oracle fuel m = some m' →
      (m'.status = Status.ended →
        ∃ f cs, produceAll env opts f m.core = some (m'.core, cs)) ∧
      (m'.status = Status.running →
        ∀ (f : Nat) (stF : St) (cs : List Str),
          produceAll env opts f m'.core = some (stF, cs) →
          ∃ f2 cs2, produceAll env opts f2 m.core = some (stF, cs2)) ∧
      (m'.status = Status.errored →
        ∃ (hx : m'.core.fileIndex < m'.core.files.length),
          addFile env opts m'.core
            (m'.core.files.get ⟨m'.core.fileIndex, hx⟩) = none) := by
  intro fuel
  induction fuel with
  | zero => intro m m' _ h; cases h
  | succ fuel ih =>
    intro m m' hrun h
    rw [loopFiles] at h
    split at h
    · next hlt =>
      split at h
      · next heq =>
        cases h
        refine ⟨fun hst => by simp at hst, fun hst => by simp at hst,
          fun _ => ⟨hlt, heq⟩⟩
      · next st' chunk heq =>
        simp only [pushChunk] at h
        split at h
        · have hrun2 : ({ m with core := st', out := m.out ++ [chunk] } : MSt).status = Status.running := hrun
          have ih2 := ih hrun2 h
          refine ⟨?_, ?_, ih2.2.2⟩
          · intro hst
            obtain ⟨f, cs, hp⟩ := ih2.1 hst
            have hp2 : produceAll env opts f st' = some (m'.core, cs) := hp
            refine ⟨f + 1, chunk :: cs, ?_⟩
            rw [produceAll, dif_pos hlt, heq]
            show (match produceAll env opts f st' with
              | none => none
              | some (st2, cs2) => some (st2, chunk :: cs2)) =
              some (m'.core, chunk :: cs)
            rw [hp2]
          · intro hst f stF cs hp
            obtain ⟨f2, cs2, hp2⟩ := ih2.2.1 hst f stF cs hp
            have hp3 : produceAll env opts f2 st' = some (stF, cs2) := hp2
            refine ⟨f2 + 1, chunk :: cs2, ?_⟩
            rw [produceAll, dif_pos hlt, heq]
            show (match produceAll env opts f2 st' with
              | none => none
              | some (st2, cs3) => some (st2, chunk :: cs3)) =
              some (stF, chunk :: cs2)
            rw [hp3]
        · cases h
          refine ⟨fun hst => ?_, fun _ f stF cs hp => ?_, fun hst => ?_⟩
          · have hst2 : m.status = Status.ended := hst
            rw [hrun] at hst2
            simp at hst2
          · have hp2 : produceAll env opts f st' = some (stF, cs) := hp
            refine ⟨f + 1, chunk :: cs, ?_⟩
            rw [produceAll, dif_pos hlt, heq]
            show (match produceAll env opts f st' with
              | none => none
              | some (st2, cs3) => some (st2, chunk :: cs3)) =
              some (stF, chunk :: cs)
            rw [hp2]
          · have hst2 : m.status = Status.errored := hst
            rw [hrun] at hst2
            simp at hst2
    · next hge =>
      simp only [pushChunk] at h
      cases h
      refine ⟨fun _ => ⟨1, [], ?_⟩, fun hst => by simp at hst,
        fun hst => by simp at hst⟩
      rw [produceAll, dif_neg hge]

/-- Reverse simulation of one `_continueProcessing` call. -/
theorem contProc_complete {env : Env} {opts : Opts} {oracle : Nat → Bool}
    {fuel : Nat} {m m' : MSt} (hrun : m.status = Status.running)
    (h : contProc env opts oracle fuel m = some m') :
    (m'.status = Status.ended →
      ∃ f cs, produceAll env opts f m.core = some (m'.core, cs)) ∧
    (m'.status = Status.running →
      ∀ (f : Nat) (stF : St) (cs : List Str),
        produceAll env opts f m'.core = some (stF, cs) →
        ∃ f2 cs2, produceAll env opts f2 m.core = some (stF, cs2)) ∧
    (m'.status = Status.errored →
      (∃ (hx : m'.core.fileIndex < m'.core.files.length),
        addFile env opts m'.core
          (m'.core.files.get ⟨m'.core.fileIndex, hx⟩) = none) ∧
      m'.headerWritten = true) := by
  unfold contProc at h
  split at h
  · next hw =>
    have hl := loopFiles_complete hrun h
    have hhw := loopFiles_hw h
    exact ⟨hl.1, hl.2.1, fun hst => ⟨hl.2.2 hst, by rw [hhw, hw]⟩⟩
  · next hw =>
    simp only [pushChunk] at h
    split at h
    · have hrun2 : ({ m with headerWritten := true, out := m.out ++ [env.header] } : MSt).status = Status.running := hrun
      have hl := loopFiles_complete hrun2 h
      have hhw := loopFiles_hw h
      exact ⟨hl.1, hl.2.1, fun hst => ⟨hl.2.2 hst, by rw [hhw]⟩⟩
    · cases h
      refine ⟨fun hst => ?_, fun _ f stF cs hp => ⟨f, cs, hp⟩, fun hst => ?_⟩
      · have hst2 : m.status = Status.ended := hst
        rw [hrun] at hst2
        simp at hst2
      · have hst2 : m.status = Status.errored := hst
        rw [hrun] at hst2
        simp at hst2

/-- A run whose cursor sits on an unreadable file never reaches the end
of the stream. -/
theorem runDemands_stuck {env : Env} {opts : Opts} {oracle : Nat → Bool} :
    ∀ {n : Nat} {m : MSt}, m.status = Status.errored →
      m.headerWritten = true →
      ∀ (hx : m.core.fileIndex < m.core.files.length),
        addFile env opts m.core
          (m.core.files.get ⟨m.core.fileIndex, hx⟩) = none →
        runDemands env opts oracle n m = none := by
  intro n
  induction n with
  | zero =>
    intro m herr _ _ _
    rw [runDemands, if_neg (by simp [herr])]
  | succ n ih =>
    intro m herr hhw hx haf
    have hread : env.readFile (m.core.files.get ⟨m.core.fileIndex, hx⟩) =
        none := by
      by_contra hcon
      cases hr : env.readFile (m.core.files.get ⟨m.core.fileIndex, hx⟩) with
      | none => exact hcon hr
      | some code =>
        rw [addFile, hr] at haf
        cases haf
    rw [runDemands, if_neg (by simp [herr]),
      contProc_read_error (by omega) hhw hx hread]
    show runDemands env opts oracle n
      { m with status := Status.errored, errors := m.errors + 1 } = none
    exact ih rfl hhw hx haf

/-- A completed run certifies that the canonical traversal of its
starting state succeeds. -/
theorem runDemands_complete {env : Env} {opts : Opts} {oracle : Nat → Bool} :
    ∀ {n : Nat} {m mF : MSt}, m.status = Status.running →
      runDemands env opts oracle n m = some mF →
      ∃ f r, produceAll env opts f m.core = some r := by
  intro n
  induction n with
  | zero =>
    intro m mF hrun h
    rw [runDemands] at h
    split at h
    · next hend => rw [hrun] at hend; simp at hend
    · cases h
  | succ n ih =>
    intro m mF hrun h
    rw [runDemands] at h
    split at h
    · next hend => rw [hrun] at hend; simp at hend
    · cases hc : contProc env opts oracle (n + 1) m with
      | none => rw [hc] at h; cases h
      | some m1 =>
        rw [hc] at h
        have hcc := contProc_complete hrun hc
        cases hst : m1.status with
        | running =>
          obtain ⟨f, ⟨stF, cs⟩, hp⟩ := ih hst h
          obtain ⟨f2, cs2, hp2⟩ := hcc.2.1 hst f stF cs hp
          exact ⟨f2, (stF, cs2), hp2⟩
        | ended =>
          obtain ⟨f, cs, hp⟩ := hcc.1 hst
          exact ⟨f, (m1.core, cs), hp⟩
        | errored =>
          obtain ⟨⟨hx, haf⟩, hhw⟩ := hcc.2.2 hst
          have h2 : runDemands env opts oracle n m1 = some mF := h
          rw [runDemands_stuck hst hhw hx haf] at h2
          cases h2

/-! ### Claims -/

/-- Claim C1: the entry file is stored at identity 0, the file list
only ever grows by appending (never shrinks or reorders, so identities
are assigned in strict first-discovery order and stay fixed), and a
path already present in the file list is never inserted a second time:
every call site either leaves the file list unchanged or appends a
single path that was not present before, so duplicate freedom is
preserved throughout the run. -/
theorem c1_identity_order :
    (∀ entry : Str, (initSt entry).files = [entry]) ∧
    (∀ (env : Env) (opts : Opts) (st st' : St) (fp chunk : Str),
      addFile env opts st fp = some (st', chunk) →
      (∃ t, st'.files = st.files ++ t) ∧ (st.files.Nodup → st'.files.Nodup)) ∧
    (∀ (env : Env) (opts : Opts) (fp : Str) (st : St) (matched mp : Str),
      (replaceRequire env opts fp st matched mp).1.files = st.files ∨
      ∃ q, q ∉ st.files ∧
        (replaceRequire env opts fp st matched mp).1.files = st.files ++ [q]) :=
  ⟨fun _ => rfl,
    fun _ _ _ _ _ _ h => ⟨(addFile_growsTo h).1, (addFile_growsTo h).2.1⟩,
    replaceRequire_files_cases⟩

/-- Witness for C1 at the sample project: adding `/a.js` appends
`/b.js` and keeps the list duplicate-free. -/
theorem c1_witness :
    ((initSt entryA).files = [entryA]) ∧
    ((∃ t, sampleSt1.files = (initSt entryA).files ++ t) ∧
      ((initSt entryA).files.Nodup → sampleSt1.files.Nodup)) ∧
    ((replaceRequire sampleEnv sampleOpts entryA (initSt entryA)
        ("require(\"./b\")".data) ("./b".data)).1.files = (initSt entryA).files ∨
      ∃ q, q ∉ (initSt entryA).files ∧
        (replaceRequire sampleEnv sampleOpts entryA (initSt entryA)
          ("require(\"./b\")".data) ("./b".data)).1.files =
          (initSt entryA).files ++ [q]) :=
  ⟨c1_identity_order.1 entryA,
    c1_identity_order.2.1 sampleEnv sampleOpts (initSt entryA) sampleSt1 entryA
      ("<0:/a.js|var b = __require(1,0);|0>".data) (by decide),
    c1_identity_order.2.2 sampleEnv sampleOpts entryA (initSt entryA)
      ("require(\"./b\")".data) ("./b".data)⟩

/-- Counterexample to claim C2 as stated: the entry `/c.js` of
`commentEnv` contains no require references, yet the emitted output is
not the verbatim concatenation around the raw source, because the
comment-stripping step removed the line comment from the body. -/
theorem c2_counterexample :
    hasRequireSite ("x\n// c".data) = false ∧
    commentEnv.readFile entryC = some ("x\n// c".data) ∧
    runDemands commentEnv sampleOpts (fun _ => true) 3 (initM entryC) =
      some commentM ∧
    commentM.out.flatten = ("H<0:/c.js|x|0>F".data) ∧
    commentM.out.flatten ≠
      commentEnv.header ++ substIdPath commentEnv.fileHeader 0 entryC ++
        ("x\n// c".data) ++ substIdPath commentEnv.fileFooter 0 entryC ++
        commentEnv.footer :=
  ⟨by decide, by decide, by decide, by decide, by decide⟩

/-- Claim C2, amended: for an entry file whose source contains no
require call sites, is unchanged by the comment-stripping step, with no
output path configured and a non-JSON extension, every completed run
emits exactly `GLOBAL_HEADER · FILE_HEADER(0, entry) · rawSource ·
FILE_FOOTER(0, entry) · GLOBAL_FOOTER`. -/
theorem c2_roundtrip_amended :
    ∀ (env : Env) (opts : Opts) (entry raw : Str) (oracle : Nat → Bool)
      (n : Nat) (m : MSt),
      env.readFile entry = some raw →
      stripComments raw = raw →
      hasRequireSite raw = false →
      opts.outputPath = none →
      env.extname entry ≠ ".json".data →
      runDemands env opts oracle n (initM entry) = some m →
      m.out.flatten =
        env.header ++ substIdPath env.fileHeader 0 entry ++ raw ++
          substIdPath env.fileFooter 0 entry ++ env.footer := by
  intro env opts entry raw oracle n mF hr hc hs ho hjson hrun
  have hadd := @addFile_simple env opts (initSt entry) entry raw hr hc hs ho
  rw [if_neg hjson] at hadd
  have hidx : jsIndexOf (initSt entry).files entry = 0 := by
    simp [initSt, jsIndexOf, jsIndexOfAux]
  rw [hidx] at hadd
  have hprod := produceAll_simpleRun hadd (by simp [initSt])
  have hInv : Inv env opts
      ({ initSt entry with fileIndex := (initSt entry).fileIndex + 1 })
      ([env.header] ++
        [substIdPath env.fileHeader 0 entry ++ [] ++ raw ++
          substIdPath env.fileFooter 0 entry] ++ [env.footer])
      (initM entry) := by
    refine ⟨rfl, 2, _, hprod, ?_⟩
    simp [initM]
  obtain ⟨-, hout, -⟩ := runDemands_inv (Or.inl hInv) hrun
  rw [hout]
  simp

/-- Witness for the amended C2 at the `/s.js` project. -/
theorem c2_witness :
    (simpleEnv.readFile entryS = some ("done".data) ∧
      stripComments ("done".data) = ("done".data) ∧
      hasRequireSite ("done".data) = false ∧
      sampleOpts.outputPath = none ∧
      simpleEnv.extname entryS ≠ ".json".data ∧
      runDemands simpleEnv sampleOpts (fun _ => true) 3 (initM entryS) =
        some simpleM) ∧
    simpleM.out.flatten =
      simpleEnv.header ++ substIdPath simpleEnv.fileHeader 0 entryS ++
        ("done".data) ++ substIdPath simpleEnv.fileFooter 0 entryS ++
        simpleEnv.footer :=
  ⟨⟨by decide, by decide, by decide, by decide, by decide, by decide⟩,
    c2_roundtrip_amended simpleEnv sampleOpts entryS ("done".data)
      (fun _ => true) 3 simpleM (by decide) (by decide) (by decide) (by decide)
      (by decide) (by decide)⟩

/-- Counterexample to claim C3 as stated: in `errEnv` every read fails;
after the first demand signal the machine has scheduled one error
notification, and a run in which the consumer issues two further demand
signals schedules two more, so the error is not raised exactly once per
run (no further chunk is pushed, the output stays at the header). -/
theorem c3_counterexample :
    (demandIter errEnv sampleOpts (fun _ => true) 3 2 errM).map
        (fun m => (m.errors, m.out)) = some (3, ["H".data]) ∧
    contProc errEnv sampleOpts (fun _ => true) 3 (initM entryA) = some errM ∧
    errM.errors = 1 :=
  ⟨by decide, by decide, by decide⟩

/-- Claim C3, amended: after a read failure the producer schedules an
asynchronous error notification and pushes nothing, and the cursor is
not advanced; each further demand signal re-attempts the same file,
fails again, and schedules one further error notification — so no chunk
is ever emitted after the failure, but one error is scheduled per
demand signal rather than exactly once per run. -/
theorem c3_error_per_demand :
    ∀ (env : Env) (opts : Opts) (oracle : Nat → Bool) (fuel : Nat) (m : MSt),
      1 ≤ fuel → m.headerWritten = true →
      ∀ (h : m.core.fileIndex < m.core.files.length),
        env.readFile (m.core.files.get ⟨m.core.fileIndex, h⟩) = none →
        ∀ n : Nat, 1 ≤ n →
          demandIter env opts oracle fuel n m =
            some { m with status := Status.errored, errors := m.errors + n } := by
  intro env opts oracle fuel m hfuel hw h hread n
  revert m
  induction n with
  | zero => intro m _ _ _ h0; omega
  | succ n ih =>
    intro m hw h hread _
    rw [demandIter, contProc_read_error hfuel hw h hread]
    show demandIter env opts oracle fuel n
        { m with status := Status.errored, errors := m.errors + 1 } =
      some { m with status := Status.errored, errors := m.errors + (n + 1) }
    cases Nat.eq_zero_or_pos n with
    | inl h0 =>
      subst h0
      rfl
    | inr hpos =>
      rw [ih { m with status := Status.errored, errors := m.errors + 1 }
        hw h hread hpos]
      have harith : m.errors + 1 + n = m.errors + (n + 1) := by omega
      rw [harith]

/-- Witness for the amended C3: from the errored state of `errEnv`, two
further demand signals schedule two further error notifications and
push nothing. -/
theorem c3_witness :
    (1 ≤ 3 ∧ errM.headerWritten = true ∧
      errM.core.fileIndex < errM.core.files.length) ∧
    demandIter errEnv sampleOpts (fun _ => true) 3 2 errM =
      some { errM with status := Status.errored, errors := errM.errors + 2 } :=
  ⟨⟨by decide, by decide, by decide⟩,
    c3_error_per_demand errEnv sampleOpts (fun _ => true) 3 errM (by decide)
      (by decide) (by decide) (by decide) 2 (by decide)⟩

/-- Claim C4: for every project and every pair of consumer demand
schedules, two completed runs push the same chunk sequence — the header
exactly once in front, then the per-file chunks of the oracle-free
canonical traversal, then the footer — and hold the same final
traversal state, hence discover the same files with the same
identities; suspension and resumption neither skip nor repeat a file. -/
theorem c4_schedule_independence :
    ∀ (env : Env) (opts : Opts) (entry : Str) (o1 o2 : Nat → Bool)
      (n1 n2 : Nat) (m1 m2 : MSt),
      runDemands env opts o1 n1 (initM entry) = some m1 →
      runDemands env opts o2 n2 (initM entry) = some m2 →
      m1.out = m2.out ∧ m1.core = m2.core ∧
        ∃ cs, m1.out = env.header :: (cs ++ [env.footer]) ∧
          ∃ f, produceAll env opts f (initSt entry) = some (m1.core, cs) := by
  intro env opts entry o1 o2 n1 n2 m1 m2 h1 h2
  obtain ⟨f, ⟨stF, cs⟩, hp⟩ := runDemands_complete rfl h1
  have hInv : Inv env opts stF (env.header :: (cs ++ [env.footer]))
      (initM entry) := by
    refine ⟨rfl, f, cs, hp, ?_⟩
    simp [initM]
  obtain ⟨-, ho1, hc1⟩ := runDemands_inv (Or.inl hInv) h1
  obtain ⟨-, ho2, hc2⟩ := runDemands_inv (Or.inl hInv) h2
  refine ⟨by rw [ho1, ho2], by rw [hc1, hc2], cs, ho1, f, ?_⟩
  rw [hc1]
  exact hp

/-- Witness for C4 at the sample project, under an always-ready
consumer and an always-backpressuring consumer. -/
theorem c4_witness :
    (runDemands sampleEnv sampleOpts (fun _ => true) 6 (initM entryA) =
        some sampleM ∧
      runDemands sampleEnv sampleOpts (fun _ => false) 8 (initM entryA) =
        some sampleM) ∧
    (sampleM.out = sampleM.out ∧ sampleM.core = sampleM.core ∧
      ∃ cs, sampleM.out = sampleEnv.header :: (cs ++ [sampleEnv.footer]) ∧
        ∃ f, produceAll sampleEnv sampleOpts f (initSt entryA) =
          some (sampleM.core, cs)) :=
  ⟨⟨by decide, by decide⟩,
    c4_schedule_independence sampleEnv sampleOpts entryA (fun _ => true)
      (fun _ => false) 6 8 sampleM sampleM (by decide) (by decide)⟩

/-- Counterexample to claim C5 as stated: a line comment on the first
line of the file is not removed — the run `// hi` consists of optional
leading whitespace followed by `//` at a line boundary (the start of
the file), yet the transformation leaves it in place instead of
removing it through the end of the line. -/
theorem c5_counterexample :
    stripComments ("// hi".data) = ("// hi".data) ∧
    stripComments ("// hi".data) ≠ [] :=
  ⟨by decide, by decide⟩

/-- Claim C5, amended: the comment-stripping step removes every line
comment run that is preceded by a line terminator.  Text in which no
comment match starts anywhere — in particular any text with no line
terminator at all, such as a comment on the first line of the file —
is left unchanged; and wherever a removable run occurs (any of the
three terminator forms `\n`, `\r`, `\r\n`, then optional whitespace,
then `//` and a terminator-free remainder of the line), at any
position after an arbitrary prefix in which no match starts, the run
is deleted — its terminator included — the prefix is copied verbatim,
and stripping continues on the rest of the text at the following line
boundary, so iterating removes every such run. -/
theorem c5_comment_stripping_amended :
    (∀ s : Str, hasCommentAt s = false → stripComments s = s) ∧
    (∀ s : Str, (∀ c ∈ s, isLineTerm c = false) → hasCommentAt s = false) ∧
    (∀ term ws rest tail pre : Str,
      (term = ['\n'] ∨ term = ['\r'] ∨ term = ['\r', '\n']) →
      (∀ c ∈ ws, isSpaceJS c = true) →
      (∀ c ∈ rest, isLineTerm c = false) →
      atLineBound tail = true →
      noCommentStart (commentRun term ws rest ++ tail) pre = true →
      stripComments (pre ++ (commentRun term ws rest ++ tail)) =
        pre ++ stripComments tail) :=
  ⟨fun _ h => stripComments_id h, fun _ h => hasCommentAt_no_term h,
    fun _ _ _ _ pre hterm hws hrest htail hpre =>
      stripComments_decomp hterm hws hrest htail pre hpre⟩

/-- Witness for the amended C5 on concrete strings: a first-line
comment is left in place, and a `\r\n`-terminated comment in the
middle of a file (after a prefix that itself contains a newline) is
removed while stripping continues on the remainder. -/
theorem c5_witness :
    (hasCommentAt ("x = 1; // ok".data) = false ∧
      stripComments ("x = 1; // ok".data) = ("x = 1; // ok".data)) ∧
    ((∀ c ∈ ("x = 1; // ok".data), isLineTerm c = false) ∧
      hasCommentAt ("x = 1; // ok".data) = false) ∧
    (noCommentStart
        (commentRun ['\r', '\n'] ("  ".data) (" c1".data) ++
          ("\nd;\n// end".data)) ("a = 1;\nb = 2;".data) = true ∧
      stripComments (("a = 1;\nb = 2;".data) ++
          (commentRun ['\r', '\n'] ("  ".data) (" c1".data) ++
            ("\nd;\n// end".data))) =
        ("a = 1;\nb = 2;".data) ++ stripComments ("\nd;\n// end".data)) :=
  ⟨⟨by decide, c5_comment_stripping_amended.1 ("x = 1; // ok".data)
      (by decide)⟩,
    ⟨by decide, c5_comment_stripping_amended.2.1 ("x = 1; // ok".data)
      (by decide)⟩,
    ⟨by decide, c5_comment_stripping_amended.2.2 ['\r', '\n'] ("  ".data)
      (" c1".data) ("\nd;\n// end".data) ("a = 1;\nb = 2;".data)
      (by decide) (by decide) (by decide) (by decide) (by decide)⟩⟩

/-- Counterexample to claim C6 as stated: when the relative path
computed for the file contains the text `__filename`, the second
(file-token) pass rewrites inside the argument the first pass spliced
in, so the directory-accessor call does not carry the relative-path
argument the claim promises. -/
theorem c6_counterexample :
    applyDirnameFilename pathoEnv outOpts ("/a.js".data) dirnameTok =
      ("__getDirname(\"x__getFilename(\"x__filename\")\")".data) ∧
    applyDirnameFilename pathoEnv outOpts ("/a.js".data) dirnameTok ≠
      getDirnameCall (jsonStringify (pathoEnv.relative
        (pathoEnv.dirname ("/out/b.js".data)) ("/a.js".data))) :=
  ⟨by decide, by decide⟩

/-- Claim C6, amended: with an output path configured and browser mode
off, the transformation is exactly the two-pass global replacement in
which the directory token and the file token are both rewritten to
accessor calls carrying the identical argument — the JSON rendering of
the file's path relative to the output path's directory; an occurrence
of either token is rewritten to its accessor call provided the
substituted text does not re-introduce the other token (the file-token
pass runs second over the already-substituted text). -/
theorem c6_token_rewrite_amended :
    ∀ (env : Env) (opts : Opts) (fp op : Str),
      opts.outputPath = some op → opts.browser = false →
      (∀ code, applyDirnameFilename env opts fp code =
        replaceAllSub filenameTok
          (getFilenameCall (jsonStringify (env.relative (env.dirname op) fp)))
          (replaceAllSub dirnameTok
            (getDirnameCall (jsonStringify (env.relative (env.dirname op) fp)))
            code)) ∧
      (∀ a b : Str, noEarlierOcc dirnameTok b a = true →
        containsSub dirnameTok b = false →
        containsSub filenameTok
          (a ++ getDirnameCall (jsonStringify (env.relative (env.dirname op) fp))
            ++ b) = false →
        applyDirnameFilename env opts fp (a ++ dirnameTok ++ b) =
          a ++ getDirnameCall (jsonStringify (env.relative (env.dirname op) fp))
            ++ b) ∧
      (∀ a b : Str, noEarlierOcc filenameTok b a = true →
        containsSub filenameTok b = false →
        containsSub dirnameTok (a ++ filenameTok ++ b) = false →
        applyDirnameFilename env opts fp (a ++ filenameTok ++ b) =
          a ++ getFilenameCall (jsonStringify (env.relative (env.dirname op) fp))
            ++ b) := by
  intro env opts fp op hop hbr
  have hdef : ∀ code, applyDirnameFilename env opts fp code =
      replaceAllSub filenameTok
        (getFilenameCall (jsonStringify (env.relative (env.dirname op) fp)))
        (replaceAllSub dirnameTok
          (getDirnameCall (jsonStringify (env.relative (env.dirname op) fp)))
          code) := by
    intro code
    unfold applyDirnameFilename
    rw [hop, hbr]
    rfl
  refine ⟨hdef, ?_, ?_⟩
  · intro a b hno hb hfn
    rw [hdef, replaceAllSub_decomp (by decide) a b hno,
      replaceAllSub_of_not_contains hb, replaceAllSub_of_not_contains hfn]
  · intro a b hno hb hdir
    rw [hdef, replaceAllSub_of_not_contains hdir,
      replaceAllSub_decomp (by decide) a b hno,
      replaceAllSub_of_not_contains hb]

/-- Witness for the amended C6: in `sampleEnv` with an output path, the
code `f(__dirname)` becomes `f(__getDirname("/a.js"))`. -/
theorem c6_witness :
    (outOpts.outputPath = some ("/out/b.js".data) ∧ outOpts.browser = false ∧
      noEarlierOcc dirnameTok (")".data) ("f(".data) = true ∧
      containsSub dirnameTok (")".data) = false ∧
      containsSub filenameTok (("f(".data) ++
        getDirnameCall (jsonStringify (sampleEnv.relative
          (sampleEnv.dirname ("/out/b.js".data)) ("/a.js".data))) ++
        (")".data)) = false) ∧
    applyDirnameFilename sampleEnv outOpts ("/a.js".data)
        (("f(".data) ++ dirnameTok ++ (")".data)) =
      ("f(".data) ++ getDirnameCall (jsonStringify (sampleEnv.relative
        (sampleEnv.dirname ("/out/b.js".data)) ("/a.js".data))) ++ (")".data) :=
  ⟨⟨by decide, by decide, by decide, by decide, by decide⟩,
    (c6_token_rewrite_amended sampleEnv outOpts ("/a.js".data)
      ("/out/b.js".data) (by decide) (by decide)).2.1 ("f(".data) (")".data)
      (by decide) (by decide) (by decide)⟩

/-- Counterexample to claim C7 as stated: when the excluded path is the
entry path itself, it is already in the file list from construction,
so a call site resolving to it is rewritten to an indexed-reference
call instead of being left byte-identical. -/
theorem c7_counterexample :
    exclOpts.excludeFiles = some [entryA] ∧
    (initSt entryA).files = [entryA] ∧
    replaceRequire selfEnv exclOpts entryA (initSt entryA)
      ("require(\"./a\")".data) ("./a".data) =
      (initSt entryA, "__require(0,0)".data) ∧
    ("__require(0,0)".data) ≠ ("require(\"./a\")".data) :=
  ⟨by decide, by decide, by decide, by decide⟩

/-- Claim C7, amended: a path of the normalised exclude set that is
distinct from the entry path never enters the file list during the
whole run; and a call site resolving to an excluded path that is not in
the file list is left byte-identical and adds nothing. -/
theorem c7_exclusion_amended :
    (∀ (env : Env) (opts0 : Opts) (entry : Str) (ex : List Str) (p : Str)
      (oracle : Nat → Bool) (n : Nat) (m : MSt),
      (normOpts env opts0).excludeFiles = some ex → p ∈ ex → p ≠ entry →
      runDemands env (normOpts env opts0) oracle n (initM entry) = some m →
      p ∉ m.core.files) ∧
    (∀ (env : Env) (opts : Opts) (fp : Str) (st : St) (matched mp : Str)
      (ex : List Str) (resolved : Str),
      opts.excludeFiles = some ex →
      env.resolveSync (unescapeFirst mp) (env.dirname fp) opts.browser =
        some resolved →
      resolved ∈ ex → resolved ∉ st.files →
      (replaceRequire env opts fp st matched mp).2 = matched ∧
        (replaceRequire env opts fp st matched mp).1.files = st.files) := by
  constructor
  · intro env opts0 entry ex p oracle n m hex hp hne hrun
    have hg := runDemands_growsTo hrun
    exact hg.2.2.1 ex p hex hp (by simp [initM, initSt, hne])
  · intro env opts fp st matched mp ex resolved hex hres hmem hnot
    exact replaceRequire_excluded hex hres hmem hnot

/-- Witness for the amended C7: `/a.js` is excluded and distinct from
the entry `/o.js`; the run never adds it, and a site resolving to it is
preserved. -/
theorem c7_witness :
    ((normOpts envO exclOpts).excludeFiles = some [entryA] ∧
      entryA ∈ [entryA] ∧ entryA ≠ entryO ∧
      runDemands envO (normOpts envO exclOpts) (fun _ => true) 3
        (initM entryO) = some doneMO) ∧
    entryA ∉ doneMO.core.files ∧
    ((replaceRequire selfEnv exclOpts entryO (initSt entryO)
        ("require(\"./a\")".data) ("./a".data)).2 = ("require(\"./a\")".data) ∧
      (replaceRequire selfEnv exclOpts entryO (initSt entryO)
        ("require(\"./a\")".data) ("./a".data)).1.files =
        (initSt entryO).files) :=
  ⟨⟨by decide, by decide, by decide, by decide⟩,
    c7_exclusion_amended.1 envO exclOpts entryO [entryA] entryA (fun _ => true)
      3 doneMO (by decide) (by decide) (by decide) (by decide),
    c7_exclusion_amended.2 selfEnv exclOpts entryO (initSt entryO)
      ("require(\"./a\")".data) ("./a".data) [entryA] entryA (by decide)
      (by decide) (by decide) (by decide)⟩

/-- Claim C8: the anchored prefix pattern accepts exactly the names
beginning with `./`, `../` or `/`; with the exclude-third-party switch
on, a requested name that (after backslash unescaping) has none of
those prefixes is left unmodified without resolution — the conclusion
holds for every environment, so the resolver is never consulted — and
no file or addon is recorded; for names bearing one of the three
prefixes the switch makes no difference at all. -/
theorem c8_third_party_exclusion :
    (∀ p : Str, jsPathPrefixTest p = true ↔
      (isPre ("./".data) p = true ∨ isPre ("../".data) p = true ∨
        isPre ("/".data) p = true)) ∧
    (∀ (env : Env) (opts : Opts) (fp : Str) (st : St) (matched mp : Str),
      opts.excludeNodeModules = true →
      jsPathPrefixTest (unescapeFirst mp) = false →
      replaceRequire env opts fp st matched mp = (st, matched)) ∧
    (∀ (env : Env) (opts : Opts) (fp : Str) (st : St) (matched mp : Str),
      (isPre ("./".data) mp = true ∨ isPre ("../".data) mp = true ∨
        isPre ("/".data) mp = true) →
      replaceRequire env { opts with excludeNodeModules := true } fp st
          matched mp =
        replaceRequire env { opts with excludeNodeModules := false } fp st
          matched mp) ∧
    (∀ mp : Str, (∀ c ∈ mp, (c == bslash) = false) → unescapeFirst mp = mp) :=
  ⟨jsPathPrefixTest_iff,
    fun _ _ _ _ _ _ hexn hpre => replaceRequire_nonpath_excluded hexn hpre,
    fun _ _ _ _ _ _ h => replaceRequire_toggle h,
    fun _ h => unescapeFirst_id h⟩

/-- Witness for C8: the bare package name `lodash` is excluded without
resolution, while the relative name `./b` behaves identically with the
switch on or off. -/
theorem c8_witness :
    (jsPathPrefixTest ("lodash".data) = true ↔
      (isPre ("./".data) ("lodash".data) = true ∨
        isPre ("../".data) ("lodash".data) = true ∨
        isPre ("/".data) ("lodash".data) = true)) ∧
    (npmOpts.excludeNodeModules = true ∧
      jsPathPrefixTest (unescapeFirst ("lodash".data)) = false ∧
      replaceRequire sampleEnv npmOpts entryA (initSt entryA)
        ("require(\"lodash\")".data) ("lodash".data) =
        (initSt entryA, "require(\"lodash\")".data)) ∧
    replaceRequire sampleEnv { sampleOpts with excludeNodeModules := true }
        entryA (initSt entryA) ("require(\"./b\")".data) ("./b".data) =
      replaceRequire sampleEnv { sampleOpts with excludeNodeModules := false }
        entryA (initSt entryA) ("require(\"./b\")".data) ("./b".data) ∧
    unescapeFirst ("lodash".data) = ("lodash".data) :=
  ⟨c8_third_party_exclusion.1 ("lodash".data),
    ⟨by decide, by decide,
      c8_third_party_exclusion.2.1 sampleEnv npmOpts entryA (initSt entryA)
        ("require(\"lodash\")".data) ("lodash".data) (by decide) (by decide)⟩,
    c8_third_party_exclusion.2.2.1 sampleEnv sampleOpts entryA (initSt entryA)
      ("require(\"./b\")".data) ("./b".data) (by decide),
    c8_third_party_exclusion.2.2.2 ("lodash".data) (by decide)⟩

/-- Claim C9: `getStats` fails with a state error exactly when the
traversal cursor is strictly below the file-list length; once the
cursor has reached the length it returns the file list (in identity
order) and the addon-excluded list, it is pure so repeated calls return
the same value, and further demand signals after completion leave the
traversal state — hence the returned statistics — unchanged. -/
theorem c9_get_stats :
    (∀ st : St, (∃ e, getStats st = Except.error e) ↔
      st.fileIndex < st.files.length) ∧
    (∀ st : St, st.files.length ≤ st.fileIndex →
      getStats st = Except.ok (st.files, st.addonsExcluded)) ∧
    (∀ (env : Env) (opts : Opts) (oracle : Nat → Bool) (fuel : Nat)
      (m m' : MSt), m.headerWritten = true →
      m.core.files.length ≤ m.core.fileIndex →
      contProc env opts oracle fuel m = some m' →
      getStats m'.core = getStats m.core ∧ m'.core = m.core) := by
  refine ⟨?_, ?_, ?_⟩
  · intro st
    unfold getStats
    split
    · next h => exact ⟨fun _ => h, fun _ => ⟨_, rfl⟩⟩
    · next h =>
      constructor
      · rintro ⟨e, he⟩; cases he
      · intro hlt; exact absurd hlt h
  · intro st h
    unfold getStats
    rw [if_neg (by omega)]
  · intro env opts oracle fuel m m' hw hdone h
    have hc := contProc_done_core hw hdone h
    exact ⟨by rw [hc], hc⟩

/-- Witness for C9 on concrete traversal states. -/
theorem c9_witness :
    ((∃ e, getStats (initSt entryS) = Except.error e) ↔
      (initSt entryS).fileIndex < (initSt entryS).files.length) ∧
    (doneM.core.files.length ≤ doneM.core.fileIndex ∧
      getStats doneM.core = Except.ok (doneM.core.files,
        doneM.core.addonsExcluded)) ∧
    (doneM.headerWritten = true ∧
      contProc simpleEnv sampleOpts (fun _ => true) 1 doneM = some doneMAfter ∧
      getStats doneMAfter.core = getStats doneM.core ∧
      doneMAfter.core = doneM.core) :=
  ⟨c9_get_stats.1 (initSt entryS),
    ⟨by decide, c9_get_stats.2.1 doneM.core (by decide)⟩,
    ⟨by decide, by decide,
      c9_get_stats.2.2 simpleEnv sampleOpts (fun _ => true) 1 doneM doneMAfter
        (by decide) (by decide) (by decide)⟩⟩

/-- Claim C10: the constructor stores the entry path verbatim (no
normalisation to absolute resolved form), so deduplication works only
up to textual equality: a require reference whose resolved absolute
path is not textually identical to any stored path — in particular the
resolver's absolute name for the very file the entry denotes — is
appended as a further file-list entry with the next (distinct)
identity. -/
theorem c10_entry_verbatim :
    (∀ entry : Str, (initSt entry).files = [entry]) ∧
    (∀ (env : Env) (opts : Opts) (fp : Str) (st : St)
      (matched mp resolved : Str),
      (env.isCore mp && !opts.browser) = false →
      (opts.excludeNodeModules && !jsPathPrefixTest (unescapeFirst mp)) =
        false →
      env.resolveSync (unescapeFirst mp) (env.dirname fp) opts.browser =
        some resolved →
      env.isCore resolved = false →
      (env.extname resolved).map Char.toLower ≠ ".node".data →
      resolved ∉ st.files →
      opts.excludeFiles = none →
      (replaceRequire env opts fp st matched mp).1.files =
        st.files ++ [resolved] ∧
      (replaceRequire env opts fp st matched mp).2 =
        requireCallText (Int.ofNat st.files.length)
          (jsIndexOf (st.files ++ [resolved]) fp)) :=
  ⟨fun _ => rfl,
    fun _ _ _ _ _ _ _ h1 h2 hres h3 h4 h5 h6 =>
      replaceRequire_appends h1 h2 hres h3 h4 h5 h6⟩

/-- Witness for C10: the entry is stored as `./a` verbatim; a reference
resolving to `/abs/a.js` is appended as a second entry with identity 1
even though it may denote the same file. -/
theorem c10_witness :
    ((initSt relEntry).files = [relEntry]) ∧
    ((replaceRequire absEnv sampleOpts relEntry (initSt relEntry)
        ("require(\"./x\")".data) ("./x".data)).1.files =
        (initSt relEntry).files ++ [("/abs/a.js".data)] ∧
      (replaceRequire absEnv sampleOpts relEntry (initSt relEntry)
        ("require(\"./x\")".data) ("./x".data)).2 =
        requireCallText (Int.ofNat (initSt relEntry).files.length)
          (jsIndexOf ((initSt relEntry).files ++ [("/abs/a.js".data)])
            relEntry)) :=
  ⟨c10_entry_verbatim.1 relEntry,
    c10_entry_verbatim.2 absEnv sampleOpts relEntry (initSt relEntry)
      ("require(\"./x\")".data) ("./x".data) ("/abs/a.js".data) (by decide)
      (by decide) (by decide) (by decide) (by decide) (by decide) (by decide)⟩

end ModuleConcat
